import Mathlib

/-!
# Verification of the tarus LSP-server core

A shallow embedding of the core data model and operations of the `lsp-server`
crate (project index, position lookup, cross-reference resolution, lens
grouping, diagnostics, and the Rust/TypeScript primitive type maps), together
with theorems settling the specification claims about them.

Modelling conventions:
* Rust `String`/`&str` become Lean `String` (or `List Char` inside the
  character-level type-mapping functions, with `String` wrappers).
* `PathBuf` becomes `String`; the few `std::path` accessors used by the code
  (`file_name`, `extension`) are modelled character-wise on that string.
* `DashMap` becomes an association list `List (K × V)`; a `DashMap` has no
  observable entry order, so theorems about whole-map enumeration are stated
  up to permutation, and everything else goes through `alookup`.
* `u32`/`usize` fields (positions, limits, lengths) become `Nat`; the code
  performs only comparisons and `saturating_sub` on them, which `Nat`
  subtraction models exactly, so no modular arithmetic is needed.
-/

namespace Tarus

/-- Model of `tower_lsp_server::lsp_types::Position` (`u32` fields). -/
structure Position where
  line : Nat
  character : Nat
deriving DecidableEq, Repr

/-- Model of `tower_lsp_server::lsp_types::Range`. The source field `end` is a
Lean keyword, so it is named `stop` here; ranges are half-open
(start inclusive, end exclusive). -/
structure Range where
  start : Position
  stop : Position
deriving DecidableEq, Repr

/-- `EntityType` from `src/syntax.rs`. -/
inductive EntityType where
  | Command
  | Event
  | Struct
  | Enum
  | Interface
deriving DecidableEq, Repr

/-- `Behavior` from `src/syntax.rs`. -/
inductive Behavior where
  | Definition
  | Call
  | Emit
  | Listen
deriving DecidableEq, Repr

/-- `ParseError` from `src/syntax.rs`. -/
inductive ParseError where
  | SyntaxError (msg : String)
  | QueryError (msg : String)
  | LanguageError (msg : String)
deriving DecidableEq, Repr

/-- `Parameter` from `src/indexer/mod.rs`. -/
structure Parameter where
  name : String
  type_name : String
deriving DecidableEq, Repr

/-- `Finding` from `src/indexer/mod.rs`. -/
structure Finding where
  key : String
  entity : EntityType
  behavior : Behavior
  range : Range
  parameters : Option (List Parameter)
  return_type : Option String
  fields : Option (List Parameter)
  attributes : Option (List String)
deriving DecidableEq, Repr

/-- `FileIndex` from `src/indexer/mod.rs`. -/
structure FileIndex where
  path : String
  findings : List Finding
deriving DecidableEq, Repr

/-- `IndexKey` from `src/indexer/mod.rs`. -/
structure IndexKey where
  entity : EntityType
  name : String
deriving DecidableEq, Repr

/-- `LocationInfo` from `src/indexer/mod.rs`. -/
structure LocationInfo where
  path : String
  range : Range
  behavior : Behavior
  parameters : Option (List Parameter)
  return_type : Option String
  fields : Option (List Parameter)
  attributes : Option (List String)
deriving DecidableEq, Repr

/-- `DiagnosticInfo`: the four per-key booleans computed in
`ProjectIndex::get_diagnostic_info` (`src/indexer/mod.rs`). -/
structure DiagnosticInfo where
  has_definition : Bool
  has_calls : Bool
  has_emitters : Bool
  has_listeners : Bool
deriving DecidableEq, Repr

/-! ## Association-list primitives modelling `DashMap` -/

variable {K V : Type}

/-- First-match lookup; models `DashMap::get`. -/
def alookup [DecidableEq K] : List (K × V) → K → Option V
  | [], _ => none
  | (k', v) :: t, k => if k' = k then some v else alookup t k

/-- Models `DashMap::remove` (drops the entry for the key). -/
def aerase [DecidableEq K] (l : List (K × V)) (k : K) : List (K × V) :=
  l.filter (fun e => e.1 ≠ k)

/-- Models `DashMap::insert`: replace in place if present, else add. -/
def ainsert [DecidableEq K] (l : List (K × V)) (k : K) (v : V) : List (K × V) :=
  if (alookup l k).isSome then l.map (fun e => if e.1 = k then (k, v) else e)
  else l ++ [(k, v)]

/-- The association list has pairwise-distinct keys. -/
def NodupKeys (l : List (K × V)) : Prop := (l.map Prod.fst).Nodup

section AssocLemmas

variable [DecidableEq K]

theorem alookup_nil (k : K) : alookup ([] : List (K × V)) k = none := rfl

theorem alookup_cons (k' : K) (v : V) (t : List (K × V)) (k : K) :
    alookup ((k', v) :: t) k = if k' = k then some v else alookup t k := rfl

theorem alookup_append (l₁ l₂ : List (K × V)) (k : K) :
    alookup (l₁ ++ l₂) k =
      match alookup l₁ k with
      | some v => some v
      | none => alookup l₂ k := by
  induction l₁ with
  | nil => simp [alookup]
  | cons e t ih =>
    obtain ⟨k', v⟩ := e
    by_cases h : k' = k <;> simp [alookup, h, ih]

theorem aerase_cons (k' : K) (v : V) (t : List (K × V)) (k : K) :
    aerase ((k', v) :: t) k =
      if k' = k then aerase t k else (k', v) :: aerase t k := by
  by_cases h : k' = k <;> simp [aerase, List.filter_cons, h]

theorem alookup_aerase (l : List (K × V)) (k q : K) :
    alookup (aerase l k) q = if k = q then none else alookup l q := by
  induction l with
  | nil => simp [alookup, aerase]
  | cons e t ih =>
    obtain ⟨k', v⟩ := e
    rw [aerase_cons]
    by_cases hk : k' = k
    · subst hk
      by_cases hq : k' = q
      · subst hq
        simp [ih]
      · simp [ih, alookup_cons, hq]
    · by_cases hq : k' = q
      · subst hq
        have hne : ¬ k = k' := fun h => hk h.symm
        simp [hk, alookup_cons, hne]
      · simp [hk, alookup_cons, hq, ih]

theorem alookup_map_replace (t : List (K × V)) (k : K) (v : V) (q : K) :
    alookup (t.map (fun e => if e.1 = k then (k, v) else e)) q =
      (alookup t q).map (fun v' => if k = q then v else v') := by
  induction t with
  | nil => simp [alookup]
  | cons e t ih =>
    obtain ⟨k', v'⟩ := e
    by_cases hk : k' = k
    · subst hk
      by_cases hq : k' = q
      · subst hq
        simp [alookup_cons]
      · have hne : ¬ k' = q := hq
        simp [alookup_cons, hne, ih]
    · by_cases hq : k' = q
      · subst hq
        have hne : ¬ k = k' := fun h => hk h.symm
        simp [alookup_cons, hk, hne]
      · simp [alookup_cons, hk, hq, ih]

theorem alookup_ainsert (l : List (K × V)) (k : K) (v : V) (q : K) :
    alookup (ainsert l k v) q = if k = q then some v else alookup l q := by
  unfold ainsert
  cases hs : alookup l k with
  | some w =>
    simp only [hs, Option.isSome_some, if_true, alookup_map_replace]
    by_cases hq : k = q
    · subst hq
      simp [hs]
    · cases h : alookup l q <;> simp [h, hq]
  | none =>
    simp only [hs, Option.isSome_none, Bool.false_eq_true, if_false]
    rw [alookup_append]
    by_cases hq : k = q
    · subst hq
      simp [hs, alookup]
    · cases h : alookup l q <;> simp [alookup, h, hq]

theorem aerase_of_not_mem (l : List (K × V)) (k : K)
    (h : alookup l k = none) : aerase l k = l := by
  induction l with
  | nil => rfl
  | cons e t ih =>
    obtain ⟨k', v⟩ := e
    rw [aerase_cons]
    by_cases hk : k' = k
    · simp [alookup_cons, hk] at h
    · simp only [alookup_cons, hk, if_false] at h
      simp [hk, ih h]

theorem aerase_aerase (l : List (K × V)) (k : K) :
    aerase (aerase l k) k = aerase l k := by
  simp [aerase, List.filter_filter]

end AssocLemmas

/-! ## Character-level string helpers

The Rust code uses `str` methods (`starts_with`, `ends_with`, `contains`,
`trim`, `trim_start_matches`); they are modelled here on `List Char`
(`String.data`). -/

/-- `needle.isPre hay` models `str::starts_with`. -/
def isPre : List Char → List Char → Bool
  | [], _ => true
  | _ :: _, [] => false
  | a :: as, b :: bs => a = b && isPre as bs

/-- Models `str::ends_with` for a string pattern. -/
def isSuf (needle hay : List Char) : Bool :=
  isPre needle.reverse hay.reverse

/-- Models `str::contains` for a string pattern. -/
def containsSub (needle : List Char) : List Char → Bool
  | [] => needle.isEmpty
  | c :: t => isPre needle (c :: t) || containsSub needle t

/-- Models `str::trim_start` (ASCII whitespace suffices for this code base). -/
def trimLeft (l : List Char) : List Char := l.dropWhile (·.isWhitespace)

/-- Models `str::trim_end`. -/
def trimRight (l : List Char) : List Char :=
  (l.reverse.dropWhile (·.isWhitespace)).reverse

/-- Models `str::trim`. -/
def trimChars (l : List Char) : List Char := trimRight (trimLeft l)

/-! ## Path accessors

`PathBuf` is modelled as `String`; these model the `std::path` accessors the
indexer uses (`file_name().and_then(to_str)` and `extension().and_then(to_str)`)
for ordinary relative/absolute file paths. -/

/-- The file-name part of a path: everything after the last `/`. -/
def pathFileName (p : String) : String :=
  String.mk ((p.data.reverse.takeWhile (· ≠ '/')).reverse)

/-- Model of `Path::extension()`: the part of the file name after its last
dot; `none` when the file name has no dot or only a leading dot. -/
def pathExtension (p : String) : Option String :=
  let name := (pathFileName p).data
  let ext := name.reverse.takeWhile (· ≠ '.')
  if ext.length = name.length then none
  else if name.length = ext.length + 1 then none
  else some (String.mk ext.reverse)

/-! ## The project index (`src/indexer/mod.rs`, `src/indexer/cache.rs`) -/

/-- `CacheManager` from `src/indexer/cache.rs` (the `DiagnosticInfo` layout
follows the flat four-boolean shape used by `src/indexer/mod.rs`). -/
structure CacheManager where
  command_names : Option (List (String × Option LocationInfo))
  event_names : Option (List (String × Option LocationInfo))
  diagnostic_info : List (IndexKey × DiagnosticInfo)
  lens_data : List (String × List (Range × String × List LocationInfo))
  position_index : List (String × List (Range × IndexKey))
deriving DecidableEq, Repr

/-- `CacheManager::new`. -/
def CacheManager.new : CacheManager :=
  { command_names := none
    event_names := none
    diagnostic_info := []
    lens_data := []
    position_index := [] }

/-- `CacheManager::invalidate_all`: clears the name caches and the
per-key diagnostic cache (but not the per-file caches). -/
def invalidate_all (c : CacheManager) : CacheManager :=
  { c with command_names := none, event_names := none, diagnostic_info := [] }

/-- `CacheManager::invalidate_file`: `invalidate_all` plus dropping the
lens-data and position-index entries of the one given path. -/
def invalidate_file (c : CacheManager) (path : String) : CacheManager :=
  { invalidate_all c with
    lens_data := aerase c.lens_data path
    position_index := aerase c.position_index path }

/-- `ProjectIndex` from `src/indexer/mod.rs`.  `reference_limit` is an
`AtomicUsize` in the source, used only via load/store. -/
structure ProjectIndex where
  map : List (IndexKey × List LocationInfo)
  file_map : List (String × List IndexKey)
  cache : CacheManager
  parse_errors : List (String × String)
  reference_limit : Nat
deriving DecidableEq, Repr

/-- `ProjectIndex::default` (reference limit 3). -/
def ProjectIndex.empty : ProjectIndex :=
  { map := []
    file_map := []
    cache := CacheManager.new
    parse_errors := []
    reference_limit := 3 }

/-- One step of `ProjectIndex::remove_file`'s loop body: retain only the
locations of other paths under `key`, then drop the key if its list became
empty. -/
def removeLocsForKey (path : String) (m : List (IndexKey × List LocationInfo))
    (key : IndexKey) : List (IndexKey × List LocationInfo) :=
  match alookup m key with
  | none => m
  | some locs =>
    let locs' := locs.filter (fun loc => loc.path ≠ path)
    if locs'.isEmpty then aerase m key else ainsert m key locs'

/-- `ProjectIndex::remove_file`: purge all entries of `path` from the primary
map, drop the reverse-map entry, invalidate caches (only when the file was
indexed), and always drop any parse error recorded for the path. -/
def remove_file (s : ProjectIndex) (path : String) : ProjectIndex :=
  match alookup s.file_map path with
  | some keys =>
    { s with
      map := keys.foldl (removeLocsForKey path) s.map
      file_map := aerase s.file_map path
      cache := invalidate_file s.cache path
      parse_errors := aerase s.parse_errors path }
  | none =>
    { s with parse_errors := aerase s.parse_errors path }

/-- The `IndexKey` an `add_file` loop iteration builds from a finding. -/
def findingKey (f : Finding) : IndexKey := { entity := f.entity, name := f.key }

/-- The `LocationInfo` an `add_file` loop iteration builds from a finding. -/
def findingLoc (path : String) (f : Finding) : LocationInfo :=
  { path := path
    range := f.range
    behavior := f.behavior
    parameters := f.parameters
    return_type := f.return_type
    fields := f.fields
    attributes := f.attributes }

/-- The `self.map.entry(key).or_default().push(info)` step of `add_file`. -/
def pushFinding (path : String) (m : List (IndexKey × List LocationInfo))
    (f : Finding) : List (IndexKey × List LocationInfo) :=
  ainsert m (findingKey f) ((alookup m (findingKey f)).getD [] ++ [findingLoc path f])

/-- `ProjectIndex::add_file`: clear old data for the path via `remove_file`,
insert every finding into the primary map, collect the keys of this file
(one per finding, in order), invalidate caches for the path, and store the
reverse-map entry. -/
def add_file (s : ProjectIndex) (fi : FileIndex) : ProjectIndex :=
  let s' := remove_file s fi.path
  { s' with
    map := fi.findings.foldl (pushFinding fi.path) s'.map
    file_map := ainsert s'.file_map fi.path (fi.findings.map findingKey)
    cache := invalidate_file s'.cache fi.path }

/-- `ProjectIndex::set_parse_error`. -/
def set_parse_error (s : ProjectIndex) (path msg : String) : ProjectIndex :=
  { s with parse_errors := ainsert s.parse_errors path msg }

/-- `ProjectIndex::get_parse_error`. -/
def get_parse_error (s : ProjectIndex) (path : String) : Option String :=
  alookup s.parse_errors path

/-- `ProjectIndex::get_locations`. -/
def get_locations (s : ProjectIndex) (entity : EntityType) (name : String) :
    List LocationInfo :=
  (alookup s.map { entity := entity, name := name }).getD []

/-! ## Position lookup (`src/indexer/position.rs`) -/

/-- `is_position_in_range` from `src/indexer/position.rs`: half-open
containment (inclusive start, exclusive end). -/
def is_position_in_range (pos : Position) (range : Range) : Bool :=
  if pos.line < range.start.line ∨ pos.line > range.stop.line then false
  else if range.start.line = range.stop.line then
    pos.character ≥ range.start.character ∧ pos.character < range.stop.character
  else if pos.line = range.start.line then
    pos.character ≥ range.start.character
  else if pos.line = range.stop.line then
    pos.character < range.stop.character
  else true

/-- The comparator of `build_position_index`'s `sort_by`, as a
boolean "less than or equal" on entries: start line first, then start
character. -/
def startLE (a b : Range × IndexKey) : Bool :=
  a.1.start.line < b.1.start.line ∨
    (a.1.start.line = b.1.start.line ∧ a.1.start.character ≤ b.1.start.character)

/-- Stable insertion of one element into a sorted list: the element goes in
front of the first entry it compares `le` to. -/
def insertLE (le : α → α → Bool) (x : α) : List α → List α
  | [] => [x]
  | y :: ys => if le x y then x :: y :: ys else y :: insertLE le x ys

/-- Stable insertion sort.  Models `slice::sort_by` (a stable sort): any two
stable sorts of the same list under the same total preorder produce the same
output list. -/
def insertionSort (le : α → α → Bool) : List α → List α
  | [] => []
  | x :: xs => insertLE le x (insertionSort le xs)

/-- `build_position_index` from `src/indexer/position.rs`: collect
`(range, key)` for every location of every key the reverse map lists for the
file, then sort by start position. -/
def build_position_index (path : String) (fileMap : List (String × List IndexKey))
    (map : List (IndexKey × List LocationInfo)) : List (Range × IndexKey) :=
  match alookup fileMap path with
  | none => []
  | some keysInFile =>
    let entries := keysInFile.foldl (fun acc key =>
      match alookup map key with
      | some locations =>
        acc ++ (locations.filter (fun loc => loc.path = path)).map
          (fun loc => (loc.range, key))
      | none => acc) []
    insertionSort startLE entries

/-- The predicate of `binary_search_position`'s `partition_point` call:
entries whose start is at or before the queried position. -/
def searchPred (position : Position) (e : Range × IndexKey) : Bool :=
  e.1.start.line < position.line ∨
    (e.1.start.line = position.line ∧ e.1.start.character ≤ position.character)

/-- Models `slice::partition_point` on a partitioned slice (all `true`
entries precede all `false` entries, which `build_position_index`'s sort
guarantees for `searchPred`): the number of leading `true` entries. -/
def partitionPoint (p : α → Bool) (l : List α) : Nat :=
  (l.takeWhile p).length

/-- One candidate test of `binary_search_position`'s window loop: if the
entry's range contains the position, return the first location of the
entry's key that lies in this file and contains the position. -/
def checkCandidate (position : Position) (map : List (IndexKey × List LocationInfo))
    (path : String) (e : Range × IndexKey) : Option (IndexKey × LocationInfo) :=
  if is_position_in_range position e.1 then
    match alookup map e.2 with
    | some locations =>
      match locations.find? (fun loc =>
          loc.path = path ∧ is_position_in_range position loc.range) with
      | some loc => some (e.2, loc)
      | none => none
    | none => none
  else none

/-- `binary_search_position` from `src/indexer/position.rs`: locate the
partition point of the queried position, then scan the candidate window
`idx-2 .. min(idx+2, len)` (saturating) for a containing entry. -/
def binary_search_position (index : List (Range × IndexKey)) (position : Position)
    (map : List (IndexKey × List LocationInfo)) (path : String) :
    Option (IndexKey × LocationInfo) :=
  let idx := partitionPoint (searchPred position) index
  let lo := idx - 2
  let hi := min (idx + 2) index.length
  ((index.drop lo).take (hi - lo)).findSome? (checkCandidate position map path)

/-- `ProjectIndex::get_key_at_position`: use the cached position index for
the file when present, otherwise build it.  (The source also stores the
freshly built index in the cache; the returned value is the same.) -/
def get_key_at_position (s : ProjectIndex) (path : String) (pos : Position) :
    Option (IndexKey × LocationInfo) :=
  match alookup s.cache.position_index path with
  | some index => binary_search_position index pos s.map path
  | none =>
    binary_search_position (build_position_index path s.file_map s.map) pos s.map path

/-! ## Name enumeration and diagnostic aggregates (`src/indexer/mod.rs`) -/

/-- The cache-miss computation of `ProjectIndex::get_all_names`: every key of
the given entity with its first `Definition` location.  A `DashMap` has no
observable entry order, so results are compared up to permutation. -/
def computeAllNames (map : List (IndexKey × List LocationInfo))
    (entity : EntityType) : List (String × Option LocationInfo) :=
  (map.filter (fun e => e.1.entity = entity)).map (fun e =>
    (e.1.name, e.2.find? (fun loc => loc.behavior = Behavior.Definition)))

/-- `ProjectIndex::get_all_names`: serve the name cache when filled, else
compute; only `Command` and `Event` have caches, everything else returns
`[]`.  (The source also fills the cache; the returned value is the same.) -/
def get_all_names (s : ProjectIndex) (entity : EntityType) :
    List (String × Option LocationInfo) :=
  match entity with
  | EntityType.Command => (s.cache.command_names).getD (computeAllNames s.map EntityType.Command)
  | EntityType.Event => (s.cache.event_names).getD (computeAllNames s.map EntityType.Event)
  | _ => []

/-- The cache-miss computation of `ProjectIndex::get_diagnostic_info`. -/
def computeDiagnosticInfo (map : List (IndexKey × List LocationInfo))
    (key : IndexKey) : DiagnosticInfo :=
  let locations := (alookup map key).getD []
  { has_definition := locations.any (fun l => l.behavior = Behavior.Definition)
    has_calls := locations.any (fun l => l.behavior = Behavior.Call)
    has_emitters := locations.any (fun l => l.behavior = Behavior.Emit)
    has_listeners := locations.any (fun l => l.behavior = Behavior.Listen) }

/-- `ProjectIndex::get_diagnostic_info`: cached per key.  (The source also
fills the cache; the returned value is the same.) -/
def get_diagnostic_info (s : ProjectIndex) (key : IndexKey) : DiagnosticInfo :=
  (alookup s.cache.diagnostic_info key).getD (computeDiagnosticInfo s.map key)

/-! ## Code-lens data (`src/indexer/mod.rs`) -/

/-- Lexicographic comparison of character lists; models `PathBuf::cmp` for
ordinary paths (the `sort_by(|a, b| a.0.cmp(&b.0))` call). -/
def charListLE : List Char → List Char → Bool
  | [], _ => true
  | _ :: _, [] => false
  | a :: as, b :: bs => if a < b then true else if b < a then false else charListLE as bs

/-- Path comparator for the per-file lens entries. -/
def pathLE (a b : String × List LocationInfo) : Bool := charListLE a.1.data b.1.data

/-- `fpath.file_name().and_then(to_str).unwrap_or("unknown")`. -/
def fileNameOr (p : String) : String :=
  let n := pathFileName p
  if n = "" then "unknown" else n

/-- The `files_map` accumulation of `group_and_format_targets`: group the
target locations by file path (`HashMap::entry().or_default().push`,
first-occurrence key order; a `HashMap` has no observable order and the
grouping is only read through its length, its per-key lists, and a sort). -/
def groupByPath (targets : List LocationInfo) : List (String × List LocationInfo) :=
  targets.foldl (fun m t =>
    ainsert m t.path ((alookup m t.path).getD [] ++ [t])) []

/-- `ProjectIndex::group_and_format_targets`: one navigable entry per target
file (sorted by path) when the number of distinct target files is within the
limit, otherwise a single "N references" summary over all target locations. -/
def group_and_format_targets (targets : List LocationInfo) (myRange : Range)
    (limit : Nat) : List (Range × String × List LocationInfo) :=
  if targets.isEmpty then []
  else
    let filesMap := groupByPath targets
    if filesMap.length ≤ limit then
      (insertionSort pathLE filesMap).map (fun e =>
        (myRange, "Go to " ++ fileNameOr e.1, e.2))
    else
      [(myRange, toString targets.length ++ " references", targets)]

/-- The body of `get_lens_data`'s per-key work: all locations of the key,
the occurrences in the current file, the targets in other files; when the
current file is Rust only the non-Rust targets are formatted, otherwise the
Rust targets (if any) and then the non-Rust targets (if any), once per
occurrence of the key in the current file. -/
def lensForKey (s : ProjectIndex) (path : String) (key : IndexKey) :
    List (Range × String × List LocationInfo) :=
  match alookup s.map key with
  | none => []
  | some allLocations =>
    let currentFileLocations := allLocations.filter (fun l => l.path = path)
    let targets := allLocations.filter (fun l => l.path ≠ path)
    if targets.isEmpty then []
    else
      currentFileLocations.foldl (fun acc myLoc =>
        let isCurrentRust := pathExtension path = some "rs"
        let rustTargets := targets.filter (fun t => pathExtension t.path = some "rs")
        let frontendTargets := targets.filter (fun t => ¬ pathExtension t.path = some "rs")
        acc ++
          (if isCurrentRust then
            group_and_format_targets frontendTargets myLoc.range s.reference_limit
          else
            (if rustTargets.isEmpty then []
             else group_and_format_targets rustTargets myLoc.range s.reference_limit) ++
            (if frontendTargets.isEmpty then []
             else group_and_format_targets frontendTargets myLoc.range s.reference_limit))) []

/-- `get_lens_data`'s loop over the file's keys with the `processed_keys`
set (duplicate keys contribute only once). -/
def lensLoop (s : ProjectIndex) (path : String) :
    List IndexKey → List IndexKey → List (Range × String × List LocationInfo) →
    List (Range × String × List LocationInfo)
  | [], _, acc => acc
  | k :: rest, processed, acc =>
    if k ∈ processed then lensLoop s path rest processed acc
    else lensLoop s path rest (k :: processed) (acc ++ lensForKey s path k)

/-- The cache-miss computation of `ProjectIndex::get_lens_data`. -/
def computeLensData (s : ProjectIndex) (path : String) :
    List (Range × String × List LocationInfo) :=
  match alookup s.file_map path with
  | none => []
  | some keys => lensLoop s path keys [] []

/-- `ProjectIndex::get_lens_data`: serve the per-file lens cache when
present, otherwise compute and store. -/
def get_lens_data (s : ProjectIndex) (path : String) :
    List (Range × String × List LocationInfo) × ProjectIndex :=
  match alookup s.cache.lens_data path with
  | some cached => (cached, s)
  | none =>
    let result := computeLensData s path
    (result,
      { s with cache :=
        { s.cache with lens_data := ainsert s.cache.lens_data path result } })

/-! ## Type mapping and naming helpers (`src/syntax.rs`) -/

theorem isPre_length_le (pre l : List Char) (h : isPre pre l = true) :
    pre.length ≤ l.length := by
  induction pre generalizing l with
  | nil => simp
  | cons a as ih =>
    cases l with
    | nil => simp [isPre] at h
    | cons b bs =>
      simp only [isPre, Bool.and_eq_true] at h
      simpa using ih bs h.2

theorem length_trimLeft_le (l : List Char) : (trimLeft l).length ≤ l.length :=
  (List.dropWhile_sublist _).length_le

theorem length_trimRight_le (l : List Char) : (trimRight l).length ≤ l.length := by
  have h := (List.dropWhile_sublist (l := l.reverse) (fun c : Char => c.isWhitespace)).length_le
  simpa [trimRight] using h

theorem length_trimChars_le (l : List Char) : (trimChars l).length ≤ l.length :=
  le_trans (length_trimRight_le _) (length_trimLeft_le _)

/-- Models `str::trim_start_matches` with a string pattern: repeatedly strip
the prefix while it matches. -/
def trimStartMatchesStr (pre : List Char) (l : List Char) : List Char :=
  if h : pre ≠ [] ∧ isPre pre l = true then
    trimStartMatchesStr pre (l.drop pre.length)
  else l
termination_by l.length
decreasing_by
  have hlen : pre.length ≤ l.length := isPre_length_le pre l h.2
  have hpos : 0 < pre.length := List.length_pos.mpr h.1
  simp only [List.length_drop]
  omega

theorem length_trimStartMatchesStr_le (pre l : List Char) :
    (trimStartMatchesStr pre l).length ≤ l.length := by
  rw [trimStartMatchesStr]
  split
  · rename_i h
    have hlen : pre.length ≤ l.length := isPre_length_le pre l h.2
    have hpos : 0 < pre.length := List.length_pos.mpr h.1
    have := length_trimStartMatchesStr_le pre (l.drop pre.length)
    simp only [List.length_drop] at this
    omega
  · exact le_refl _
termination_by l.length
decreasing_by
  rename_i h
  have hlen : pre.length ≤ l.length := isPre_length_le pre l h.2
  have hpos : 0 < pre.length := List.length_pos.mpr h.1
  simp only [List.length_drop]
  omega

/-- The depth-tracking scan inside `extract_result_ok_type`: index of the
first `,` at angle-bracket depth 0 (the depth counter is an `i32` in the
source). -/
def findTopComma : List Char → Int → Nat → Option Nat
  | [], _, _ => none
  | c :: rest, depth, i =>
    if c = '<' then findTopComma rest (depth + 1) (i + 1)
    else if c = '>' then findTopComma rest (depth - 1) (i + 1)
    else if c = ',' ∧ depth = 0 then some i
    else findTopComma rest depth (i + 1)

/-- `extract_result_ok_type` from `src/syntax.rs`: unwrap the success type of
`Result<T, E>`, leaving other types (trimmed) unchanged. -/
def extract_result_ok_type (l : List Char) : List Char :=
  let rt := trimChars l
  if isPre "Result<".data rt then
    let inner := (rt.drop 7).dropLast
    match findTopComma inner 0 0 with
    | some i => trimChars (inner.take i)
    | none => trimChars inner
  else rt

theorem length_extract_result_ok_type_le (l : List Char) :
    (extract_result_ok_type l).length ≤ l.length := by
  have htrim := length_trimChars_le l
  have hinner : ((((trimChars l).drop 7).dropLast)).length ≤ l.length := by
    have h1 := List.length_dropLast ((trimChars l).drop 7)
    simp only [List.length_drop] at h1
    omega
  show (if isPre "Result<".data (trimChars l) = true then
      match findTopComma (((trimChars l).drop 7).dropLast) 0 0 with
      | some i => trimChars ((((trimChars l).drop 7).dropLast).take i)
      | none => trimChars (((trimChars l).drop 7).dropLast)
    else trimChars l).length ≤ l.length
  split
  · split
    · exact le_trans (length_trimChars_le _) (le_trans (List.length_take_le' _ _) hinner)
    · exact le_trans (length_trimChars_le _) hinner
  · exact htrim

/-- The numeric Rust types that map to `number`. -/
def numericRustTypes : List (List Char) :=
  ["u8", "i8", "u16", "i16", "u32", "i32", "u64", "i64", "f32", "f64",
   "usize", "isize"].map String.data

/-- `map_rust_type_to_ts` from `src/syntax.rs`, character-level core. -/
def map_rust_type_to_ts_core (l : List Char) : List Char :=
  let rt0 := extract_result_ok_type l
  let rt1 := trimChars rt0
  let rt := trimChars (trimStartMatchesStr "mut ".data (rt1.dropWhile (· = '&')))
  if rt = "String".data ∨ rt = "str".data ∨ rt = "&str".data then "string".data
  else if rt ∈ numericRustTypes then "number".data
  else if rt = "bool".data then "boolean".data
  else if isPre "Vec<".data rt then
    map_rust_type_to_ts_core ((rt.drop 4).dropLast) ++ "[]".data
  else if isPre "Option<".data rt then
    map_rust_type_to_ts_core ((rt.drop 7).dropLast) ++ " | null".data
  else if isPre "HashMap<".data rt then "Record<string, any>".data
  else if rt = "Value".data ∨ rt = "serde_json::Value".data then "any".data
  else rt
termination_by l.length
decreasing_by
  · rename_i hpre
    have hrt : rt = trimChars (trimStartMatchesStr "mut ".data (rt1.dropWhile (· = '&'))) := rfl
    have hrt1 : rt1 = trimChars rt0 := rfl
    have hrt0 : rt0 = extract_result_ok_type l := rfl
    have hb : rt.length ≤ l.length := by
      rw [hrt, hrt1, hrt0]
      refine le_trans (length_trimChars_le _) ?_
      refine le_trans (length_trimStartMatchesStr_le _ _) ?_
      refine le_trans (List.dropWhile_sublist _).length_le ?_
      exact le_trans (length_trimChars_le _) (length_extract_result_ok_type_le l)
    have hp := isPre_length_le _ _ hpre
    have hl4 : ("Vec<".data).length = 4 := rfl
    rw [hl4] at hp
    have hrtFull : rt = trimChars (trimStartMatchesStr "mut ".data
        ((trimChars (extract_result_ok_type l)).dropWhile (· = '&'))) := by
      rw [hrt, hrt1, hrt0]
    simp only [List.length_dropLast, List.length_drop]
    rw [← hrtFull]
    omega
  · rename_i hpre
    have hrt : rt = trimChars (trimStartMatchesStr "mut ".data (rt1.dropWhile (· = '&'))) := rfl
    have hrt1 : rt1 = trimChars rt0 := rfl
    have hrt0 : rt0 = extract_result_ok_type l := rfl
    have hb : rt.length ≤ l.length := by
      rw [hrt, hrt1, hrt0]
      refine le_trans (length_trimChars_le _) ?_
      refine le_trans (length_trimStartMatchesStr_le _ _) ?_
      refine le_trans (List.dropWhile_sublist _).length_le ?_
      exact le_trans (length_trimChars_le _) (length_extract_result_ok_type_le l)
    have hp := isPre_length_le _ _ hpre
    have hl7 : ("Option<".data).length = 7 := rfl
    rw [hl7] at hp
    have hrtFull : rt = trimChars (trimStartMatchesStr "mut ".data
        ((trimChars (extract_result_ok_type l)).dropWhile (· = '&'))) := by
      rw [hrt, hrt1, hrt0]
    simp only [List.length_dropLast, List.length_drop]
    rw [← hrtFull]
    omega

/-- `map_rust_type_to_ts` on `String`. -/
def map_rust_type_to_ts (s : String) : String :=
  String.mk (map_rust_type_to_ts_core s.data)

/-- `map_ts_type_to_rust` from `src/syntax.rs`, character-level core. -/
def map_ts_type_to_rust_core (l : List Char) : List Char :=
  let t := trimChars l
  if t = "string".data then "String".data
  else if t = "number".data then "i64".data
  else if t = "boolean".data then "bool".data
  else if t = "any".data then "serde_json::Value".data
  else if t = "null".data ∨ t = "undefined".data then "()".data
  else if isSuf "[]".data t then
    "Vec<".data ++ map_ts_type_to_rust_core (t.take (t.length - 2)) ++ ">".data
  else if isPre "Array<".data t ∧ t.getLast? = some '>' then
    "Vec<".data ++ map_ts_type_to_rust_core ((t.drop 6).dropLast) ++ ">".data
  else if t.any (fun c => c = '|') then "serde_json::Value".data
  else t
termination_by l.length
decreasing_by
  · rename_i hsuf
    have ht : t = trimChars l := rfl
    have h1 : t.length ≤ l.length := ht ▸ length_trimChars_le l
    have hx : isPre ("[]".data.reverse) t.reverse = true := by
      have h := hsuf
      unfold isSuf at h
      exact h
    have h2 := isPre_length_le _ _ hx
    have hl2 : ("[]".data.reverse).length = 2 := rfl
    rw [hl2, List.length_reverse] at h2
    simp only [List.length_take]
    rw [← ht]
    omega
  · rename_i hpre
    have ht : t = trimChars l := rfl
    have h1 : t.length ≤ l.length := ht ▸ length_trimChars_le l
    have h2 := isPre_length_le _ _ hpre.1
    have hl6 : ("Array<".data).length = 6 := rfl
    rw [hl6] at h2
    simp only [List.length_dropLast, List.length_drop]
    rw [← ht]
    omega

/-- `map_ts_type_to_rust` on `String`. -/
def map_ts_type_to_rust (s : String) : String :=
  String.mk (map_ts_type_to_rust_core s.data)

/-- The character loop of `snake_to_camel` (the `capitalize` flag starts
false, is set by `_`, and upper-cases the next pushed character). -/
def snakeToCamelGo : List Char → Bool → List Char
  | [], _ => []
  | c :: rest, capitalize =>
    if c = '_' then snakeToCamelGo rest true
    else if capitalize then c.toUpper :: snakeToCamelGo rest false
    else c :: snakeToCamelGo rest false

/-- `snake_to_camel` from `src/syntax.rs`. -/
def snake_to_camel (s : String) : String := String.mk (snakeToCamelGo s.data false)

/-- `should_rename_to_camel` from `src/syntax.rs`: any attribute mentioning
`serde`, `rename_all` and `camelCase`. -/
def should_rename_to_camel (attributes : Option (List String)) : Bool :=
  match attributes with
  | some attrs => attrs.any (fun attr =>
      containsSub "serde".data attr.data ∧ containsSub "rename_all".data attr.data ∧
        containsSub "camelCase".data attr.data)
  | none => false

/-! ## Diagnostics (`src/capabilities/diagnostics.rs`) -/

/-- The subset of `lsp_types::DiagnosticSeverity` values this code emits. -/
inductive DiagnosticSeverity where
  | WARNING
deriving DecidableEq, Repr

/-- Model of `lsp_types::Diagnostic` restricted to the fields
`compute_file_diagnostics` sets (the rest stay at their defaults). -/
structure Diagnostic where
  range : Range
  severity : DiagnosticSeverity
  source : String
  message : String
deriving DecidableEq, Repr

/-- Push one warning diagnostic with source "tarus". -/
def mkDiag (range : Range) (message : String) : Diagnostic :=
  { range := range, severity := DiagnosticSeverity.WARNING, source := "tarus",
    message := message }

/-- The presence-diagnostic `match loc.behavior` of `compute_file_diagnostics`:
definition-never-called, first undefined call, listen-never-emitted, and
first unheard emit. -/
def presenceDiag (key : IndexKey) (info : DiagnosticInfo)
    (firstCall firstEmit : Option Range) (loc : LocationInfo) : Option Diagnostic :=
  match loc.behavior with
  | Behavior.Definition =>
    if key.entity = EntityType.Command ∧ ¬ info.has_calls then
      some (mkDiag loc.range
        ("Command '" ++ key.name ++ "' is defined but never invoked in frontend"))
    else none
  | Behavior.Call =>
    if ¬ info.has_definition then
      if firstCall = some loc.range then
        some (mkDiag loc.range
          ("Command '" ++ key.name ++ "' is not defined in Rust backend"))
      else none
    else none
  | Behavior.Listen =>
    if ¬ info.has_emitters then
      some (mkDiag loc.range
        ("Event '" ++ key.name ++ "' is listened for but never emitted"))
    else none
  | Behavior.Emit =>
    if ¬ info.has_listeners then
      if firstEmit = some loc.range then
        some (mkDiag loc.range
          ("Event '" ++ key.name ++ "' is emitted but no listeners found"))
      else none
    else none

/-- The `filtered_rust_params` filter: drop backend-only parameters whose
type mentions `State`, `AppHandle` or `Window`. -/
def filterBackendOnlyParams (rustParams : List Parameter) : List Parameter :=
  rustParams.filter (fun p =>
    ¬ (["State", "AppHandle", "Window"].any (fun s => containsSub s.data p.type_name.data)))

/-- The per-frontend-argument checks: unexpected argument, or primitive type
mismatch against the mapped backend type (skipped when either side is
`any`). -/
def tsParamDiags (key : IndexKey) (loc : LocationInfo)
    (tsParams filteredRustParams : List Parameter) : List Diagnostic :=
  tsParams.foldl (fun acc tsP =>
    match filteredRustParams.find? (fun rp =>
        snake_to_camel rp.name = tsP.name ∨ rp.name = tsP.name) with
    | some rp =>
      let expected := map_rust_type_to_ts rp.type_name
      if tsP.type_name ≠ "any" ∧ expected ≠ "any" ∧ tsP.type_name ≠ expected then
        acc ++ [mkDiag loc.range
          ("Type mismatch for argument '" ++ tsP.name ++ "': expected " ++ expected ++
            ", got " ++ tsP.type_name)]
      else acc
    | none =>
      acc ++ [mkDiag loc.range
        ("Command '" ++ key.name ++ "' does not expect argument '" ++ tsP.name ++ "'")]) []

/-- The missing-required-argument check: non-`Option` backend parameters
absent from the frontend call under either naming convention. -/
def missingParamDiags (key : IndexKey) (loc : LocationInfo)
    (tsParams filteredRustParams : List Parameter) : List Diagnostic :=
  filteredRustParams.foldl (fun acc rp =>
    if ¬ tsParams.any (fun p => p.name = snake_to_camel rp.name ∨ p.name = rp.name) then
      if ¬ containsSub "Option".data rp.type_name.data then
        acc ++ [mkDiag loc.range
          ("Missing required argument '" ++ snake_to_camel rp.name ++ "' for command '" ++
            key.name ++ "'")]
      else acc
    else acc) []

/-- `ts_ret.trim_start_matches('<').trim_end_matches('>').trim()`. -/
def stripTypeArg (tsRet : String) : String :=
  String.mk (trimChars (((tsRet.data.dropWhile (· = '<')).reverse.dropWhile (· = '>')).reverse))

/-- The return-type check of `compute_file_diagnostics`: skip on `any`;
struct-vs-interface field-by-field comparison when the backend return names a
known struct; plain primitive comparison otherwise. -/
def returnTypeDiags (s : ProjectIndex) (key : IndexKey) (loc defLoc : LocationInfo) :
    List Diagnostic :=
  match loc.return_type, defLoc.return_type with
  | some tsRet, some rustRet =>
    let tsType := stripTypeArg tsRet
    let expectedTsType := map_rust_type_to_ts rustRet
    if tsType = "any" then []
    else
      let structLocs := get_locations s EntityType.Struct rustRet
      if ¬ structLocs.isEmpty then
        let ifaceLocs := get_locations s EntityType.Interface tsType
        match ifaceLocs.find? (fun l => l.behavior = Behavior.Definition),
            structLocs.find? (fun l => l.behavior = Behavior.Definition) with
        | some ifaceDef, some structDef =>
          match ifaceDef.fields, structDef.fields with
          | some ifaceFields, some structFields =>
            let renameToCamel := should_rename_to_camel structDef.attributes
            ifaceFields.foldl (fun acc ifF =>
              match structFields.find? (fun f =>
                  if renameToCamel then snake_to_camel f.name = ifF.name
                  else f.name = ifF.name) with
              | some stF =>
                let expectedFType := map_rust_type_to_ts stF.type_name
                if ifF.type_name ≠ "any" ∧ expectedFType ≠ "any" ∧
                    ifF.type_name ≠ expectedFType then
                  acc ++ [mkDiag loc.range
                    ("Type mismatch for field '" ++ ifF.name ++ "' in return type '" ++
                      tsType ++ "': expected " ++ expectedFType ++ ", got " ++ ifF.type_name)]
                else acc
              | none => acc) []
          | _, _ => []
        | _, _ => []
      else
        if tsType ≠ expectedTsType then
          [mkDiag loc.range
            ("Return type mismatch for command '" ++ key.name ++ "': expected " ++
              expectedTsType ++ ", got " ++ tsType)]
        else []
  | _, _ => []

/-- The structural type-checking block run for `Call` locations of defined
commands. -/
def typeCheckDiags (s : ProjectIndex) (key : IndexKey) (info : DiagnosticInfo)
    (locations : List LocationInfo) (loc : LocationInfo) : List Diagnostic :=
  if loc.behavior = Behavior.Call ∧ info.has_definition then
    match locations.find? (fun l => l.behavior = Behavior.Definition) with
    | some defLoc =>
      (match loc.parameters, defLoc.parameters with
       | some tsParams, some rustParams =>
         let filtered := filterBackendOnlyParams rustParams
         tsParamDiags key loc tsParams filtered ++ missingParamDiags key loc tsParams filtered
       | _, _ => []) ++ returnTypeDiags s key loc defLoc
    | none => []
  else []

/-- One iteration of `compute_file_diagnostics`' outer key loop. -/
def keyDiagnostics (s : ProjectIndex) (path : String) (key : IndexKey) :
    List Diagnostic :=
  let info := get_diagnostic_info s key
  let locations := get_locations s key.entity key.name
  let localLocations := locations.filter (fun l => l.path = path)
  let firstCall := (localLocations.find? (fun l => l.behavior = Behavior.Call)).map
    (fun l => l.range)
  let firstEmit := (localLocations.find? (fun l => l.behavior = Behavior.Emit)).map
    (fun l => l.range)
  localLocations.foldl (fun acc loc =>
    (acc ++ (presenceDiag key info firstCall firstEmit loc).toList) ++
      typeCheckDiags s key info locations loc) []

/-- `compute_file_diagnostics` from `src/capabilities/diagnostics.rs`:
nothing while a parse error is recorded for the path, nothing for unindexed
paths, otherwise the per-key diagnostics for every entry of the file's
reverse-map key list (which contains one entry per finding, so repeated
symbols are visited repeatedly). -/
def compute_file_diagnostics (s : ProjectIndex) (path : String) : List Diagnostic :=
  if (get_parse_error s path).isSome then []
  else
    match alookup s.file_map path with
    | none => []
    | some keys => keys.foldl (fun acc k => acc ++ keyDiagnostics s path k) []

/-! ## Go to definition (`src/capabilities/definition.rs`) -/

/-- The fixed behavior adjacency of the resolver:
Definition↔Call, Emit↔Listen. -/
def behaviorPartner : Behavior → Behavior
  | Behavior.Definition => Behavior.Call
  | Behavior.Call => Behavior.Definition
  | Behavior.Emit => Behavior.Listen
  | Behavior.Listen => Behavior.Emit

/-- The target filter of `handle_goto_definition`: drop the origin location
itself (same range and path), keep locations whose behavior is the partner
of the origin's behavior. -/
def gotoTargets (originLoc : LocationInfo) (allRefs : List LocationInfo) :
    List LocationInfo :=
  allRefs.filter (fun target =>
    ¬ (target.range = originLoc.range ∧ target.path = originLoc.path) ∧
      target.behavior = behaviorPartner originLoc.behavior)

/-- `handle_goto_definition`: resolve the key under the cursor, filter all its
locations to the adjacency partners, and return them (`None` when empty).
The protocol wrapping (`Uri` conversion, `LocationLink` construction) is
transport formatting and out of the model; the returned list carries the
target locations in order. -/
def handle_goto_definition (s : ProjectIndex) (path : String) (pos : Position) :
    Option (List LocationInfo) :=
  match get_key_at_position s path pos with
  | some (key, originLoc) =>
    let targets := gotoTargets originLoc (get_locations s key.entity key.name)
    if targets.isEmpty then none else some targets
  | none => none

/-! ## File processing (`src/file_processor.rs`) -/

/-- `SUPPORTED_EXTENSIONS` from `src/file_processor.rs`. -/
def SUPPORTED_EXTENSIONS : List String := ["rs", "ts", "tsx", "js", "jsx", "vue", "svelte"]

/-- `is_supported_file` from `src/file_processor.rs`. -/
def is_supported_file (path : String) : Bool :=
  match pathExtension path with
  | some ext => SUPPORTED_EXTENSIONS.contains ext
  | none => false

/-- The `format!("{e:?}")` debug rendering of a parse error (`Debug` derive;
the exact text only matters through being recorded, not parsed). -/
def ParseError.debugFmt : ParseError → String
  | ParseError.SyntaxError m => "SyntaxError(" ++ reprStr m ++ ")"
  | ParseError.QueryError m => "QueryError(" ++ reprStr m ++ ")"
  | ParseError.LanguageError m => "LanguageError(" ++ reprStr m ++ ")"

/-- `process_file_content` from `src/file_processor.rs`.  `tree_parser::parse`
is the extraction pipeline (tree-sitter grammars, external to the index
core); the function is parameterised over its result.  On success the file is
added; on failure only a parse error is recorded — the file's prior entries
are not touched. -/
def process_file_content (path : String) (parseResult : Except ParseError FileIndex)
    (s : ProjectIndex) : Bool × ProjectIndex :=
  if ¬ is_supported_file path then (false, s)
  else
    match parseResult with
    | Except.ok fileIndex => (true, add_file s fileIndex)
    | Except.error e => (false, set_parse_error s path (ParseError.debugFmt e))

/-! ## Spec-side containment predicate

`insideSpec` transcribes the specification's wording of "inside" for a
half-open range (to be compared with the code's `is_position_in_range`):
line between start line and end line, on the start line column ≥ start
column, on the end line column < end column, any strictly-between line
always inside. -/

/-- The specification's definition of a position lying inside a half-open
range. -/
def insideSpec (p : Position) (r : Range) : Prop :=
  (r.start.line ≤ p.line ∧ p.line ≤ r.stop.line) ∧
  (p.line = r.start.line → r.start.character ≤ p.character) ∧
  (p.line = r.stop.line → p.character < r.stop.character)

instance (p : Position) (r : Range) : Decidable (insideSpec p r) := by
  unfold insideSpec
  infer_instance

/-! ## Concrete builders used by the claim scenarios -/

/-- A range literal. -/
def mkRange (l1 c1 l2 c2 : Nat) : Range := ⟨⟨l1, c1⟩, ⟨l2, c2⟩⟩

/-- A bare finding (no parameters/return type/fields/attributes). -/
def mkFinding (name : String) (entity : EntityType) (behavior : Behavior)
    (range : Range) : Finding :=
  { key := name, entity := entity, behavior := behavior, range := range,
    parameters := none, return_type := none, fields := none, attributes := none }

/-! # Claim theorems -/

/-! ## C1: behavior-adjacency resolution -/

/-- The index state of the C1 scenario: one `Definition` of the command
`save_file` in `backend.rs` and one `Call` in `app.ts`. -/
def c1State : ProjectIndex :=
  add_file
    (add_file ProjectIndex.empty
      { path := "backend.rs",
        findings := [mkFinding "save_file" EntityType.Command Behavior.Definition
          (mkRange 3 0 3 9)] })
    { path := "app.ts",
      findings := [mkFinding "save_file" EntityType.Command Behavior.Call
        (mkRange 7 4 7 13)] }

/-- C1: cross-reference resolution returns exactly the locations of the key
whose behavior is the origin's adjacency partner (Definition↔Call,
Emit↔Listen), minus any location with the origin's path and range; with one
Definition and one Call of the same `(Command, name)` key in different
files, resolving from the Definition yields exactly the Call and vice
versa. -/
theorem C1_goto_definition_adjacency :
    (∀ (originLoc : LocationInfo) (allRefs : List LocationInfo) (t : LocationInfo),
      t ∈ gotoTargets originLoc allRefs ↔
        (t ∈ allRefs ∧ t.behavior = behaviorPartner originLoc.behavior ∧
          ¬ (t.range = originLoc.range ∧ t.path = originLoc.path))) ∧
    (behaviorPartner Behavior.Definition = Behavior.Call ∧
     behaviorPartner Behavior.Call = Behavior.Definition ∧
     behaviorPartner Behavior.Emit = Behavior.Listen ∧
     behaviorPartner Behavior.Listen = Behavior.Emit) ∧
    (handle_goto_definition c1State "backend.rs" ⟨3, 4⟩ =
      some [(findingLoc "app.ts"
        (mkFinding "save_file" EntityType.Command Behavior.Call (mkRange 7 4 7 13)))] ∧
     handle_goto_definition c1State "app.ts" ⟨7, 8⟩ =
      some [(findingLoc "backend.rs"
        (mkFinding "save_file" EntityType.Command Behavior.Definition (mkRange 3 0 3 9)))]) := by
  refine ⟨?_, by decide, by decide⟩
  intro originLoc allRefs t
  simp only [gotoTargets, List.mem_filter, decide_eq_true_eq]
  constructor
  · rintro ⟨hmem, hno, hbeh⟩
    exact ⟨hmem, hbeh, hno⟩
  · rintro ⟨hmem, hbeh, hno⟩
    exact ⟨hmem, hno, hbeh⟩

/-! ## C10: parse errors cleared by reindexing and removal -/

/-- C10: after `add_file` for a path, and after `remove_file` of a path, no
parse error remains recorded for that path (so a once-failing file that
later parses cleanly no longer suppresses diagnostics). -/
theorem C10_parse_error_cleared (s : ProjectIndex) (fi : FileIndex) (path : String) :
    get_parse_error (add_file s fi) fi.path = none ∧
    get_parse_error (remove_file s path) path = none := by
  have hrem : ∀ (s' : ProjectIndex) (p : String),
      get_parse_error (remove_file s' p) p = none := by
    intro s' p
    unfold remove_file get_parse_error
    cases h : alookup s'.file_map p <;> simp [alookup_aerase]
  exact ⟨hrem s fi.path, hrem s path⟩

/-! ## C5: parse-failure isolation -/

/-- A state with one indexed call of `f` in `app.ts`, followed by a failing
re-parse of `app.ts` through `process_file_content`. -/
def c5StateBefore : ProjectIndex :=
  add_file ProjectIndex.empty
    { path := "app.ts",
      findings := [mkFinding "f" EntityType.Command Behavior.Call (mkRange 0 0 0 3)] }

/-- The state after the failing re-parse of `app.ts`. -/
def c5StateAfter : ProjectIndex :=
  (process_file_content "app.ts"
    (Except.error (ParseError.SyntaxError "boom")) c5StateBefore).2

/-- C5 counterexample: after a parse failure for `app.ts`, the file's prior
index entries are NOT purged — the stale symbol `f` is still returned by
`get_locations` (and the reverse map still lists the file), contradicting the
claim that the failing file's entries are purged until it parses again. -/
theorem C5_counterexample :
    get_locations c5StateAfter EntityType.Command "f" =
      [findingLoc "app.ts" (mkFinding "f" EntityType.Command Behavior.Call (mkRange 0 0 0 3))] ∧
    alookup c5StateAfter.file_map "app.ts" =
      some [{ entity := EntityType.Command, name := "f" }] ∧
    get_parse_error c5StateAfter "app.ts" ≠ none := by decide

/-- C5 amended: a parse failure for one supported file records the error
tagged with the path, leaves the whole primary and reverse maps (hence every
other file's entries, and even the failing file's prior entries) untouched,
and suppresses diagnostics for that path while the error is recorded; the
prior entries are not purged. -/
theorem C5_failure_isolation (path : String) (e : ParseError) (s : ProjectIndex)
    (hsup : is_supported_file path = true) :
    (process_file_content path (Except.error e) s).2.map = s.map ∧
    (process_file_content path (Except.error e) s).2.file_map = s.file_map ∧
    (process_file_content path (Except.error e) s).2.cache = s.cache ∧
    get_parse_error (process_file_content path (Except.error e) s).2 path =
      some (ParseError.debugFmt e) ∧
    (∀ q, q ≠ path →
      get_parse_error (process_file_content path (Except.error e) s).2 q =
        get_parse_error s q) ∧
    compute_file_diagnostics (process_file_content path (Except.error e) s).2 path = [] := by
  unfold process_file_content
  simp only [hsup, Bool.not_true, Bool.false_eq_true, if_false]
  refine ⟨rfl, rfl, rfl, ?_, ?_, ?_⟩
  · unfold set_parse_error get_parse_error
    simp [alookup_ainsert]
  · intro q hq
    show alookup (ainsert s.parse_errors path (ParseError.debugFmt e)) q =
      alookup s.parse_errors q
    rw [alookup_ainsert]
    exact if_neg (fun h => hq h.symm)
  · unfold compute_file_diagnostics
    have : get_parse_error (set_parse_error s path (ParseError.debugFmt e)) path =
        some (ParseError.debugFmt e) := by
      unfold set_parse_error get_parse_error
      simp [alookup_ainsert]
    simp [this]

/-- C5 witness: the amended theorem applied at a concrete supported path. -/
theorem C5_failure_isolation_witness :
    is_supported_file "app.ts" = true ∧
    compute_file_diagnostics
      (process_file_content "app.ts"
        (Except.error (ParseError.SyntaxError "boom")) c5StateBefore).2 "app.ts" = [] :=
  ⟨by decide,
    (C5_failure_isolation "app.ts" (ParseError.SyntaxError "boom") c5StateBefore
      (by decide)).2.2.2.2.2⟩

/-! ## C6: repeated undefined calls in one file -/

/-- One file calling the undefined command `ghost_command` three times. -/
def c6State : ProjectIndex :=
  add_file ProjectIndex.empty
    { path := "app.ts",
      findings :=
        [mkFinding "ghost_command" EntityType.Command Behavior.Call (mkRange 0 0 0 5),
         mkFinding "ghost_command" EntityType.Command Behavior.Call (mkRange 1 0 1 5),
         mkFinding "ghost_command" EntityType.Command Behavior.Call (mkRange 2 0 2 5)] }

/-- C6 (code bug): with three calls of one undefined command in a file, the
reverse-map key list holds the key once per finding and the outer loop of
`compute_file_diagnostics` has no dedup, so the "not defined in Rust
backend" diagnostic for the first call's range is emitted three times —
not exactly once as specified; the second and third call ranges indeed get
no diagnostic of their own. -/
theorem C6_duplicate_first_call_diagnostic :
    compute_file_diagnostics c6State "app.ts" =
      [mkDiag (mkRange 0 0 0 5) "Command 'ghost_command' is not defined in Rust backend",
       mkDiag (mkRange 0 0 0 5) "Command 'ghost_command' is not defined in Rust backend",
       mkDiag (mkRange 0 0 0 5) "Command 'ghost_command' is not defined in Rust backend"] := by
  decide

/-! ## C7: cache invalidation scope -/

/-- `backend.rs` defines `greet`, `app.ts` calls it once. -/
def c7State0 : ProjectIndex :=
  add_file
    (add_file ProjectIndex.empty
      { path := "backend.rs",
        findings := [mkFinding "greet" EntityType.Command Behavior.Definition
          (mkRange 2 0 2 5)] })
    { path := "app.ts",
      findings := [mkFinding "greet" EntityType.Command Behavior.Call (mkRange 0 0 0 5)] }

/-- The state after `get_lens_data("backend.rs")` filled the lens cache. -/
def c7Cached : ProjectIndex := (get_lens_data c7State0 "backend.rs").2

/-- The state after `app.ts` was re-indexed with a second call of `greet`
(which only invalidates the per-file caches of `app.ts`). -/
def c7AfterEdit : ProjectIndex :=
  add_file c7Cached
    { path := "app.ts",
      findings := [mkFinding "greet" EntityType.Command Behavior.Call (mkRange 0 0 0 5),
                   mkFinding "greet" EntityType.Command Behavior.Call (mkRange 4 0 4 5)] }

/-- C7 counterexample: after mutating `app.ts`, the cached lens data of
`backend.rs` is served as-is and no longer matches the cache-free
computation — the next `get_lens_data("backend.rs")` does NOT reflect the
new contents of `app.ts` (it still shows one call where there are now
two). -/
theorem C7_counterexample :
    (get_lens_data c7AfterEdit "backend.rs").1 ≠ computeLensData c7AfterEdit "backend.rs" ∧
    (get_lens_data c7AfterEdit "backend.rs").1 =
      [(mkRange 2 0 2 5, "Go to app.ts",
        [findingLoc "app.ts"
          (mkFinding "greet" EntityType.Command Behavior.Call (mkRange 0 0 0 5))])] ∧
    computeLensData c7AfterEdit "backend.rs" =
      [(mkRange 2 0 2 5, "Go to app.ts",
        [findingLoc "app.ts"
          (mkFinding "greet" EntityType.Command Behavior.Call (mkRange 0 0 0 5)),
         findingLoc "app.ts"
          (mkFinding "greet" EntityType.Command Behavior.Call (mkRange 4 0 4 5))])] := by
  decide

/-- C7 amended: every mutation clears the global name caches and the whole
per-key diagnostic cache, and clears the per-file lens and position caches of
the mutated path only (`remove_file` does so when the path was indexed);
lens caches of other files are not invalidated and can be served stale. -/
theorem C7_invalidation_scope (s : ProjectIndex) (fi : FileIndex) (path : String)
    (hp : (alookup s.file_map path).isSome) :
    ((add_file s fi).cache.command_names = none ∧
     (add_file s fi).cache.event_names = none ∧
     (add_file s fi).cache.diagnostic_info = [] ∧
     alookup (add_file s fi).cache.lens_data fi.path = none ∧
     alookup (add_file s fi).cache.position_index fi.path = none) ∧
    ((remove_file s path).cache.command_names = none ∧
     (remove_file s path).cache.event_names = none ∧
     (remove_file s path).cache.diagnostic_info = [] ∧
     alookup (remove_file s path).cache.lens_data path = none ∧
     alookup (remove_file s path).cache.position_index path = none) := by
  constructor
  · refine ⟨rfl, rfl, rfl, ?_, ?_⟩
    · show alookup (aerase (remove_file s fi.path).cache.lens_data fi.path) fi.path = none
      rw [alookup_aerase]
      simp
    · show alookup (aerase (remove_file s fi.path).cache.position_index fi.path)
        fi.path = none
      rw [alookup_aerase]
      simp
  · obtain ⟨keys, hk⟩ := Option.isSome_iff_exists.mp hp
    unfold remove_file
    rw [hk]
    refine ⟨rfl, rfl, rfl, ?_, ?_⟩
    · show alookup (aerase s.cache.lens_data path) path = none
      rw [alookup_aerase]
      simp
    · show alookup (aerase s.cache.position_index path) path = none
      rw [alookup_aerase]
      simp

/-- C7 witness: the amended theorem applied to a state in which
`backend.rs` is indexed. -/
theorem C7_invalidation_scope_witness :
    (alookup c7State0.file_map "backend.rs").isSome = true ∧
    alookup (remove_file c7State0 "backend.rs").cache.lens_data "backend.rs" = none :=
  ⟨by decide,
    (C7_invalidation_scope c7State0
      { path := "app.ts", findings := [] } "backend.rs" (by decide)).2.2.2.2.1⟩

/-! ## C8: lens grouping -/

theorem length_insertLE (le : α → α → Bool) (x : α) (l : List α) :
    (insertLE le x l).length = l.length + 1 := by
  induction l with
  | nil => rfl
  | cons y ys ih => by_cases h : le x y <;> simp [insertLE, h, ih]

theorem length_insertionSort (le : α → α → Bool) (l : List α) :
    (insertionSort le l).length = l.length := by
  induction l with
  | nil => rfl
  | cons x xs ih => simp [insertionSort, length_insertLE, ih]

theorem mem_insertLE (le : α → α → Bool) (x : α) (l : List α) (a : α) :
    a ∈ insertLE le x l ↔ a = x ∨ a ∈ l := by
  induction l with
  | nil => simp [insertLE]
  | cons y ys ih =>
    by_cases h : le x y <;> simp [insertLE, h, ih] <;> tauto

theorem mem_insertionSort (le : α → α → Bool) (l : List α) (a : α) :
    a ∈ insertionSort le l ↔ a ∈ l := by
  induction l with
  | nil => simp [insertionSort]
  | cons x xs ih => simp [insertionSort, mem_insertLE, ih]

theorem alookup_none_not_mem_fst [DecidableEq K] (l : List (K × V)) (k : K)
    (h : alookup l k = none) : k ∉ l.map Prod.fst := by
  induction l with
  | nil => simp
  | cons e t ih =>
    obtain ⟨k', v⟩ := e
    by_cases hk : k' = k
    · simp [alookup_cons, hk] at h
    · simp only [alookup_cons, hk, if_false] at h
      simp [hk, ih h]
      exact fun hc => hk hc.symm

theorem NodupKeys_ainsert [DecidableEq K] (l : List (K × V)) (k : K) (v : V)
    (h : NodupKeys l) : NodupKeys (ainsert l k v) := by
  unfold ainsert
  cases hs : alookup l k with
  | some w =>
    simp only [Option.isSome_some, if_true]
    unfold NodupKeys at h ⊢
    have : (l.map (fun e => if e.1 = k then (k, v) else e)).map Prod.fst = l.map Prod.fst := by
      rw [List.map_map]
      refine List.map_congr_left ?_
      intro e _
      by_cases he : e.1 = k <;> simp [he]
    rw [this]
    exact h
  | none =>
    simp only [Option.isSome_none, Bool.false_eq_true, if_false]
    unfold NodupKeys at h ⊢
    rw [List.map_append]
    refine List.Nodup.append h (by simp) ?_
    intro a ha hb
    simp at hb
    exact alookup_none_not_mem_fst l k hs (hb ▸ ha)

theorem mem_iff_alookup [DecidableEq K] (l : List (K × V)) (h : NodupKeys l)
    (k : K) (v : V) : (k, v) ∈ l ↔ alookup l k = some v := by
  induction l with
  | nil => simp [alookup]
  | cons e t ih =>
    obtain ⟨k', v'⟩ := e
    unfold NodupKeys at h
    simp only [List.map_cons, List.nodup_cons] at h
    by_cases hk : k' = k
    · subst hk
      rw [alookup_cons, if_pos rfl]
      simp only [List.mem_cons, Option.some_inj, Prod.mk.injEq]
      constructor
      · rintro (⟨_, rfl⟩ | hm)
        · rfl
        · exact absurd (List.mem_map_of_mem Prod.fst hm) h.1
      · rintro rfl
        exact Or.inl ⟨trivial, rfl⟩
    · rw [alookup_cons, if_neg hk, ← ih h.2]
      simp only [List.mem_cons, Prod.mk.injEq]
      constructor
      · rintro (⟨h1, _⟩ | hm)
        · exact absurd h1.symm hk
        · exact hm
      · exact Or.inr

theorem groupByPath_go_lookup (ts : List LocationInfo)
    (acc : List (String × List LocationInfo)) (q : String) :
    alookup (ts.foldl (fun m t =>
        ainsert m t.path ((alookup m t.path).getD [] ++ [t])) acc) q =
      match alookup acc q with
      | some ls => some (ls ++ ts.filter (fun t => t.path = q))
      | none =>
        if (ts.filter (fun t => t.path = q)).isEmpty then none
        else some (ts.filter (fun t => t.path = q)) := by
  induction ts generalizing acc with
  | nil => cases h : alookup acc q <;> simp [h]
  | cons t ts ih =>
    simp only [List.foldl_cons]
    rw [ih]
    by_cases hq : t.path = q
    · subst hq
      rw [alookup_ainsert, if_pos rfl]
      cases h : alookup acc t.path <;>
        simp [h, List.filter_cons]
    · rw [alookup_ainsert, if_neg hq]
      cases h : alookup acc q <;>
        simp [h, List.filter_cons, hq]

theorem groupByPath_lookup (ts : List LocationInfo) (q : String) :
    alookup (groupByPath ts) q =
      if (ts.filter (fun t => t.path = q)).isEmpty then none
      else some (ts.filter (fun t => t.path = q)) := by
  unfold groupByPath
  rw [groupByPath_go_lookup ts [] q]
  rfl

theorem NodupKeys_groupByPath (ts : List LocationInfo) : NodupKeys (groupByPath ts) := by
  unfold groupByPath
  suffices h : ∀ acc : List (String × List LocationInfo), NodupKeys acc →
      NodupKeys (ts.foldl (fun m t =>
        ainsert m t.path ((alookup m t.path).getD [] ++ [t])) acc) by
    exact h [] (by simp [NodupKeys])
  induction ts with
  | nil => intro acc h; exact h
  | cons t ts ih =>
    intro acc h
    exact ih _ (NodupKeys_ainsert _ _ _ h)

/-- Two Rust files sharing the event `progress` (emit in `a.rs`, listen in
`b.rs`). -/
def c8RustPair : ProjectIndex :=
  add_file
    (add_file ProjectIndex.empty
      { path := "a.rs",
        findings := [mkFinding "progress" EntityType.Event Behavior.Emit (mkRange 1 0 1 8)] })
    { path := "b.rs",
      findings := [mkFinding "progress" EntityType.Event Behavior.Listen (mkRange 9 0 9 8)] }

/-- C8 counterexample: for the Rust file `a.rs`, the Rust-dialect target
group (the listener in `b.rs`) is non-empty, yet `get_lens_data` emits no
grouping at all — when the current file is Rust only non-Rust targets are
formatted, contrary to the claim that each non-empty group produces
groupings. -/
theorem C8_counterexample :
    computeLensData c8RustPair "a.rs" = [] ∧
    (get_locations c8RustPair EntityType.Event "progress").filter
      (fun l => l.path ≠ "a.rs") ≠ [] := by decide

/-- `backend.rs` defines `greet`; `app.ts` calls it; `other.ts` calls it. -/
def c8Frontend : ProjectIndex :=
  add_file
    (add_file
      (add_file ProjectIndex.empty
        { path := "backend.rs",
          findings := [mkFinding "greet" EntityType.Command Behavior.Definition
            (mkRange 2 0 2 5)] })
      { path := "app.ts",
        findings := [mkFinding "greet" EntityType.Command Behavior.Call (mkRange 0 0 0 5)] })
    { path := "other.ts",
      findings := [mkFinding "greet" EntityType.Command Behavior.Call (mkRange 3 0 3 5)] }

/-- `app2.ts` calls `greet` twice; `backend.rs` defines it. -/
def c8TwoOcc : ProjectIndex :=
  add_file
    (add_file ProjectIndex.empty
      { path := "backend.rs",
        findings := [mkFinding "greet" EntityType.Command Behavior.Definition
          (mkRange 2 0 2 5)] })
    { path := "app2.ts",
      findings := [mkFinding "greet" EntityType.Command Behavior.Call (mkRange 0 0 0 5),
                   mkFinding "greet" EntityType.Command Behavior.Call (mkRange 4 0 4 5)] }

/-- C8 amended: `group_and_format_targets` groups the targets by file path
(each group holding exactly the targets of that path, in order); over the
limit it emits exactly one "N references" summary with N the total number of
target locations; within the limit it emits one navigable entry per distinct
target file.  At the `get_lens_data` level the partition is asymmetric: a
Rust current file formats only its non-Rust targets (Rust-to-Rust targets
are dropped), a non-Rust current file formats the Rust group then the
non-Rust group, and the groupings are repeated once per occurrence of the
symbol in the current file. -/
theorem C8_lens_grouping (targets : List LocationInfo) (r : Range) (limit : Nat) :
    (∀ q, alookup (groupByPath targets) q =
      if (targets.filter (fun t => t.path = q)).isEmpty then none
      else some (targets.filter (fun t => t.path = q))) ∧
    (targets ≠ [] → ¬ (groupByPath targets).length ≤ limit →
      group_and_format_targets targets r limit =
        [(r, toString targets.length ++ " references", targets)]) ∧
    (targets ≠ [] → (groupByPath targets).length ≤ limit →
      (group_and_format_targets targets r limit).length = (groupByPath targets).length ∧
      ∀ entry ∈ group_and_format_targets targets r limit,
        entry.1 = r ∧ ∃ q, entry.2.1 = "Go to " ++ fileNameOr q ∧
          entry.2.2 = targets.filter (fun t => t.path = q) ∧ entry.2.2 ≠ []) ∧
    (computeLensData c8Frontend "app.ts" =
      [(mkRange 0 0 0 5, "Go to backend.rs",
        [findingLoc "backend.rs"
          (mkFinding "greet" EntityType.Command Behavior.Definition (mkRange 2 0 2 5))]),
       (mkRange 0 0 0 5, "Go to other.ts",
        [findingLoc "other.ts"
          (mkFinding "greet" EntityType.Command Behavior.Call (mkRange 3 0 3 5))])] ∧
     computeLensData c8TwoOcc "app2.ts" =
      [(mkRange 0 0 0 5, "Go to backend.rs",
        [findingLoc "backend.rs"
          (mkFinding "greet" EntityType.Command Behavior.Definition (mkRange 2 0 2 5))]),
       (mkRange 4 0 4 5, "Go to backend.rs",
        [findingLoc "backend.rs"
          (mkFinding "greet" EntityType.Command Behavior.Definition (mkRange 2 0 2 5))])] ∧
     computeLensData c8RustPair "a.rs" = []) := by
  refine ⟨groupByPath_lookup targets, ?_, ?_, by decide⟩
  · intro hne hgt
    unfold group_and_format_targets
    rw [if_neg (by simpa using hne), if_neg hgt]
  · intro hne hle
    unfold group_and_format_targets
    rw [if_neg (by simpa using hne), if_pos hle]
    constructor
    · rw [List.length_map, length_insertionSort]
    · intro entry hentry
      simp only [List.mem_map] at hentry
      obtain ⟨e, he, rfl⟩ := hentry
      rw [mem_insertionSort] at he
      obtain ⟨q, ls⟩ := e
      have hl := (mem_iff_alookup _ (NodupKeys_groupByPath targets) q ls).mp he
      rw [groupByPath_lookup] at hl
      refine ⟨rfl, q, rfl, ?_, ?_⟩
      · by_cases hemp : (targets.filter (fun t => t.path = q)).isEmpty
        · rw [if_pos hemp] at hl
          exact absurd hl (by simp)
        · rw [if_neg hemp] at hl
          exact (Option.some_inj.mp hl).symm
      · by_cases hemp : (targets.filter (fun t => t.path = q)).isEmpty
        · rw [if_pos hemp] at hl
          exact absurd hl (by simp)
        · rw [if_neg hemp] at hl
          have := Option.some_inj.mp hl
          subst this
          simpa [List.isEmpty_iff] using hemp

/-- C8 witness: the amended theorem's summary branch at a concrete
over-limit target list. -/
theorem C8_lens_grouping_witness :
    letI t1 := findingLoc "a.ts" (mkFinding "x" EntityType.Command Behavior.Call (mkRange 0 0 0 1))
    letI t2 := findingLoc "b.ts" (mkFinding "x" EntityType.Command Behavior.Call (mkRange 0 0 0 1))
    ([t1, t2] ≠ [] ∧ ¬ (groupByPath [t1, t2]).length ≤ 1) ∧
    group_and_format_targets [t1, t2] (mkRange 5 0 5 1) 1 =
      [(mkRange 5 0 5 1, "2 references", [t1, t2])] := by
  refine ⟨⟨by decide, by decide⟩, ?_⟩
  have h := (C8_lens_grouping
    [findingLoc "a.ts" (mkFinding "x" EntityType.Command Behavior.Call (mkRange 0 0 0 1)),
     findingLoc "b.ts" (mkFinding "x" EntityType.Command Behavior.Call (mkRange 0 0 0 1))]
    (mkRange 5 0 5 1) 1).2.1 (by decide) (by decide)
  simpa using h

/-! ## C9: the backend↔frontend primitive type map -/

theorem trimLeft_cons_of (c : Char) (l : List Char) (hc : c.isWhitespace = false) :
    trimLeft (c :: l) = c :: l := by
  simp [trimLeft, List.dropWhile_cons, hc]

theorem trimRight_concat_of (l : List Char) (c : Char) (hc : c.isWhitespace = false) :
    trimRight (l ++ [c]) = l ++ [c] := by
  simp [trimRight, List.dropWhile_cons, hc]

theorem trimChars_wrap (c : Char) (mid : List Char) (d : Char)
    (hc : c.isWhitespace = false) (hd : d.isWhitespace = false) :
    trimChars (c :: (mid ++ [d])) = c :: (mid ++ [d]) := by
  unfold trimChars
  rw [trimLeft_cons_of c _ hc]
  rw [show c :: (mid ++ [d]) = (c :: mid) ++ [d] from rfl]
  rw [trimRight_concat_of _ _ hd]

theorem trimStartMatchesStr_of_not (pre l : List Char) (h : isPre pre l = false) :
    trimStartMatchesStr pre l = l := by
  rw [trimStartMatchesStr]
  simp [h]

theorem dropWhile_cons_of_neg {p : Char → Bool} (c : Char) (l : List Char)
    (hc : p c = false) : (c :: l).dropWhile p = c :: l := by
  simp [List.dropWhile_cons, hc]

theorem extract_result_ok_type_wrap (c : Char) (mid : List Char) (d : Char)
    (hc : c.isWhitespace = false) (hd : d.isWhitespace = false)
    (hnr : isPre "Result<".data (c :: (mid ++ [d])) = false) :
    extract_result_ok_type (c :: (mid ++ [d])) = c :: (mid ++ [d]) := by
  simp only [extract_result_ok_type, trimChars_wrap c mid d hc hd, hnr,
    Bool.false_eq_true, if_false]

/-- The normalization prefix of `map_rust_type_to_ts` is the identity on a
string wrapped between a non-`&`, non-`m`, non-whitespace head and a
non-whitespace last character. -/
theorem rust_normalize_wrap (c : Char) (mid : List Char) (d : Char)
    (hc : c.isWhitespace = false) (hd : d.isWhitespace = false)
    (hamp : (c = '&') = False) (hnr : isPre "Result<".data (c :: (mid ++ [d])) = false)
    (hmut : isPre "mut ".data (c :: (mid ++ [d])) = false) :
    trimChars (trimStartMatchesStr "mut ".data
      ((trimChars (extract_result_ok_type (c :: (mid ++ [d])))).dropWhile (· = '&'))) =
      c :: (mid ++ [d]) := by
  rw [extract_result_ok_type_wrap c mid d hc hd hnr]
  rw [trimChars_wrap c mid d hc hd]
  rw [dropWhile_cons_of_neg c _ (by simp [hamp])]
  rw [trimStartMatchesStr_of_not _ _ hmut]
  rw [trimChars_wrap c mid d hc hd]

/-- `map_rust_type_to_ts` maps the array container by mapping the element:
`Vec<T>` goes to `map(T)[]` for every element string `T`. -/
theorem map_rust_type_to_ts_vec (T : List Char) :
    map_rust_type_to_ts_core ("Vec<".data ++ T ++ ">".data) =
      map_rust_type_to_ts_core T ++ "[]".data := by
  have hX : "Vec<".data ++ T ++ ">".data = 'V' :: (('e' :: 'c' :: '<' :: T) ++ ['>']) := rfl
  rw [hX]
  have hrt := rust_normalize_wrap 'V' ('e' :: 'c' :: '<' :: T) '>'
    (by decide) (by decide) (by simp) rfl rfl
  rw [map_rust_type_to_ts_core]
  rw [hrt]
  rw [if_neg ?hstr, if_neg ?hnum, if_neg ?hbool, if_pos ?hvec]
  case hstr =>
    rintro (h | h | h) <;> (injection h with h1 _; exact absurd h1 (by decide))
  case hnum =>
    intro h
    simp only [numericRustTypes, List.map_cons, List.map_nil, List.mem_cons,
      List.mem_nil_iff, or_false] at h
    rcases h with h | h | h | h | h | h | h | h | h | h | h | h <;>
      (injection h with h1 _; exact absurd h1 (by decide))
  case hbool =>
    intro h
    injection h with h1 _
    exact absurd h1 (by decide)
  case hvec => rfl
  show map_rust_type_to_ts_core
      ((('V' :: (('e' :: 'c' :: '<' :: T) ++ ['>'])).drop 4).dropLast) ++ "[]".data =
    map_rust_type_to_ts_core T ++ "[]".data
  have harg : (('V' :: (('e' :: 'c' :: '<' :: T) ++ ['>'])).drop 4).dropLast = T := by
    show (T ++ ['>']).dropLast = T
    exact List.dropLast_concat ..
  rw [harg]

/-- `map_rust_type_to_ts` maps the optional container by mapping the element:
`Option<T>` goes to `map(T) | null` for every element string `T`. -/
theorem map_rust_type_to_ts_option (T : List Char) :
    map_rust_type_to_ts_core ("Option<".data ++ T ++ ">".data) =
      map_rust_type_to_ts_core T ++ " | null".data := by
  have hX : "Option<".data ++ T ++ ">".data =
      'O' :: (('p' :: 't' :: 'i' :: 'o' :: 'n' :: '<' :: T) ++ ['>']) := rfl
  rw [hX]
  have hrt := rust_normalize_wrap 'O' ('p' :: 't' :: 'i' :: 'o' :: 'n' :: '<' :: T) '>'
    (by decide) (by decide) (by simp) rfl rfl
  rw [map_rust_type_to_ts_core]
  rw [hrt]
  rw [if_neg ?hstr, if_neg ?hnum, if_neg ?hbool, if_neg ?hvec, if_pos ?hopt]
  case hstr =>
    rintro (h | h | h) <;> (injection h with h1 _; exact absurd h1 (by decide))
  case hnum =>
    intro h
    simp only [numericRustTypes, List.map_cons, List.map_nil, List.mem_cons,
      List.mem_nil_iff, or_false] at h
    rcases h with h | h | h | h | h | h | h | h | h | h | h | h <;>
      (injection h with h1 _; exact absurd h1 (by decide))
  case hbool =>
    intro h
    injection h with h1 _
    exact absurd h1 (by decide)
  case hvec => exact fun h => Bool.noConfusion h
  case hopt => rfl
  show map_rust_type_to_ts_core
      ((('O' :: (('p' :: 't' :: 'i' :: 'o' :: 'n' :: '<' :: T) ++ ['>'])).drop 7).dropLast) ++
      " | null".data =
    map_rust_type_to_ts_core T ++ " | null".data
  have harg : (('O' :: (('p' :: 't' :: 'i' :: 'o' :: 'n' :: '<' :: T) ++ ['>'])).drop 7).dropLast
      = T := by
    show (T ++ ['>']).dropLast = T
    exact List.dropLast_concat ..
  rw [harg]

theorem trimLeft_eq_self_of_trimChars (T : List Char) (h : trimChars T = T) :
    trimLeft T = T := by
  have h1 : (trimChars T).length ≤ (trimLeft T).length := length_trimRight_le _
  have h2 : (trimLeft T).length ≤ T.length := length_trimLeft_le _
  have h3 : (trimLeft T).length = T.length := by
    rw [h] at h1
    omega
  exact (List.dropWhile_sublist _).eq_of_length h3

theorem head_not_ws_of_trimLeft (c : Char) (l : List Char)
    (h : trimLeft (c :: l) = c :: l) : c.isWhitespace = false := by
  by_cases hc : c.isWhitespace = true
  · exfalso
    have : trimLeft (c :: l) = trimLeft l := by simp [trimLeft, List.dropWhile_cons, hc]
    rw [this] at h
    have := congrArg List.length h
    have hle := length_trimLeft_le l
    simp at this
    omega
  · simpa using hc

theorem trimChars_concat_brackets (T : List Char) (h : trimChars T = T) :
    trimChars (T ++ ['[', ']']) = T ++ ['[', ']'] := by
  have htl : trimLeft (T ++ ['[', ']']) = T ++ ['[', ']'] := by
    cases T with
    | nil => rfl
    | cons c T' =>
      have hc := head_not_ws_of_trimLeft c T' (trimLeft_eq_self_of_trimChars _ h)
      rw [show (c :: T') ++ ['[', ']'] = c :: (T' ++ ['[', ']']) from rfl]
      exact trimLeft_cons_of c _ hc
  unfold trimChars
  rw [htl]
  rw [show T ++ ['[', ']'] = (T ++ ['[']) ++ [']'] from by simp]
  exact trimRight_concat_of _ _ (by decide)

/-- `map_ts_type_to_rust` maps the array container by mapping the element:
`T[]` goes to `Vec<map(T)>` for every trimmed element string `T`. -/
theorem map_ts_type_to_rust_array (T : List Char) (hT : trimChars T = T) :
    map_ts_type_to_rust_core (T ++ "[]".data) =
      "Vec<".data ++ map_ts_type_to_rust_core T ++ ">".data := by
  have hX : T ++ "[]".data = T ++ ['[', ']'] := rfl
  rw [hX]
  have htc := trimChars_concat_brackets T hT
  have hlast : (T ++ ['[', ']']).getLast? = some ']' := by
    rw [show T ++ ['[', ']'] = (T ++ ['[']) ++ [']'] from by simp]
    exact List.getLast?_concat _
  have hne : ∀ lit : List Char, lit.getLast? ≠ some ']' → T ++ ['[', ']'] ≠ lit := by
    intro lit hl h
    rw [h] at hlast
    exact hl hlast
  have hsuf : isSuf "[]".data (T ++ ['[', ']']) = true := by
    unfold isSuf
    rw [List.reverse_append]
    rfl
  rw [map_ts_type_to_rust_core]
  rw [htc]
  rw [if_neg (hne _ (by decide)), if_neg (hne _ (by decide)), if_neg (hne _ (by decide)),
    if_neg (hne _ (by decide)), if_neg ?hnull, if_pos hsuf]
  case hnull =>
    rintro (h | h)
    · exact hne _ (by decide) h
    · exact hne _ (by decide) h
  have harg : (T ++ ['[', ']']).take ((T ++ ['[', ']']).length - 2) = T := by
    have hlen : (T ++ ['[', ']']).length - 2 = T.length := by
      simp [List.length_append]
    rw [hlen]
    exact List.take_left ..
  rw [harg]

/-- C9 counterexample: the frontend→backend direction does not recurse into
the nullable container: `string | null` and `boolean | null` both map to the
opaque `serde_json::Value` (the element's image `String` does not occur in
the output at all), while the backend→frontend direction maps
`Option<String>` to `string | null`. -/
theorem C9_counterexample :
    map_ts_type_to_rust "string | null" = "serde_json::Value" ∧
    map_ts_type_to_rust "boolean | null" = "serde_json::Value" ∧
    containsSub "String".data (map_ts_type_to_rust "string | null").data = false ∧
    map_rust_type_to_ts "Option<String>" = "string | null" := by
  refine ⟨?_, ?_, ?_, ?_⟩
  · rw [map_ts_type_to_rust, map_ts_type_to_rust_core]
    decide
  · rw [map_ts_type_to_rust, map_ts_type_to_rust_core]
    decide
  · rw [map_ts_type_to_rust, map_ts_type_to_rust_core]
    decide
  · have hopt := map_rust_type_to_ts_option "String".data
    have hs : map_rust_type_to_ts_core "String".data = "string".data := by
      rw [show "String".data = 'S' :: (['t','r','i','n'] ++ ['g']) from rfl,
        map_rust_type_to_ts_core,
        rust_normalize_wrap 'S' ['t','r','i','n'] 'g' (by decide) (by decide) (by simp) rfl rfl]
      decide
    rw [map_rust_type_to_ts]
    rw [show "Option<String>".data = "Option<".data ++ "String".data ++ ">".data from rfl]
    rw [hopt, hs]
    rfl

/-- C9 amended: the primitive type map is defined in both directions with
exact leaf categories (String/str↔string, all integer and float types →
number and number → i64, bool↔boolean); the array container recurses in both
directions (`Vec<T>` ↦ `map(T)[]` and `T[]` ↦ `Vec<map(T)>`); the optional
container recurses backend→frontend only (`Option<T>` ↦ `map(T) | null`),
while frontend nullable unions map to the opaque `serde_json::Value` without
recursing into the element. -/
theorem C9_type_map :
    (map_rust_type_to_ts "String" = "string") ∧
    (map_rust_type_to_ts "str" = "string") ∧
    (map_rust_type_to_ts "bool" = "boolean") ∧
    (map_rust_type_to_ts "u8" = "number") ∧
    (map_rust_type_to_ts "i8" = "number") ∧
    (map_rust_type_to_ts "u16" = "number") ∧
    (map_rust_type_to_ts "i16" = "number") ∧
    (map_rust_type_to_ts "u32" = "number") ∧
    (map_rust_type_to_ts "i32" = "number") ∧
    (map_rust_type_to_ts "u64" = "number") ∧
    (map_rust_type_to_ts "i64" = "number") ∧
    (map_rust_type_to_ts "f32" = "number") ∧
    (map_rust_type_to_ts "f64" = "number") ∧
    (map_rust_type_to_ts "usize" = "number") ∧
    (map_rust_type_to_ts "isize" = "number") ∧
    (map_ts_type_to_rust "string" = "String") ∧
    (map_ts_type_to_rust "number" = "i64") ∧
    (map_ts_type_to_rust "boolean" = "bool") ∧
    (∀ T : List Char, map_rust_type_to_ts_core ("Vec<".data ++ T ++ ">".data) =
      map_rust_type_to_ts_core T ++ "[]".data) ∧
    (∀ T : List Char, map_rust_type_to_ts_core ("Option<".data ++ T ++ ">".data) =
      map_rust_type_to_ts_core T ++ " | null".data) ∧
    (∀ T : List Char, trimChars T = T →
      map_ts_type_to_rust_core (T ++ "[]".data) =
        "Vec<".data ++ map_ts_type_to_rust_core T ++ ">".data) ∧
    (map_ts_type_to_rust "string | null" = "serde_json::Value") := by
  refine ⟨?_, ?_, ?_, ?_, ?_, ?_, ?_, ?_, ?_, ?_, ?_, ?_, ?_, ?_, ?_, ?_, ?_, ?_,
    map_rust_type_to_ts_vec, map_rust_type_to_ts_option, map_ts_type_to_rust_array, ?_⟩
  · rw [map_rust_type_to_ts, show "String".data = 'S' :: (['t','r','i','n'] ++ ['g']) from rfl,
      map_rust_type_to_ts_core,
      rust_normalize_wrap 'S' ['t','r','i','n'] 'g' (by decide) (by decide) (by simp) rfl rfl]
    decide
  · rw [map_rust_type_to_ts, show "str".data = 's' :: (['t'] ++ ['r']) from rfl,
      map_rust_type_to_ts_core,
      rust_normalize_wrap 's' ['t'] 'r' (by decide) (by decide) (by simp) rfl rfl]
    decide
  · rw [map_rust_type_to_ts, show "bool".data = 'b' :: (['o','o'] ++ ['l']) from rfl,
      map_rust_type_to_ts_core,
      rust_normalize_wrap 'b' ['o','o'] 'l' (by decide) (by decide) (by simp) rfl rfl]
    decide
  · rw [map_rust_type_to_ts, show "u8".data = 'u' :: ([] ++ ['8']) from rfl,
      map_rust_type_to_ts_core,
      rust_normalize_wrap 'u' [] '8' (by decide) (by decide) (by simp) rfl rfl]
    decide
  · rw [map_rust_type_to_ts, show "i8".data = 'i' :: ([] ++ ['8']) from rfl,
      map_rust_type_to_ts_core,
      rust_normalize_wrap 'i' [] '8' (by decide) (by decide) (by simp) rfl rfl]
    decide
  · rw [map_rust_type_to_ts, show "u16".data = 'u' :: (['1'] ++ ['6']) from rfl,
      map_rust_type_to_ts_core,
      rust_normalize_wrap 'u' ['1'] '6' (by decide) (by decide) (by simp) rfl rfl]
    decide
  · rw [map_rust_type_to_ts, show "i16".data = 'i' :: (['1'] ++ ['6']) from rfl,
      map_rust_type_to_ts_core,
      rust_normalize_wrap 'i' ['1'] '6' (by decide) (by decide) (by simp) rfl rfl]
    decide
  · rw [map_rust_type_to_ts, show "u32".data = 'u' :: (['3'] ++ ['2']) from rfl,
      map_rust_type_to_ts_core,
      rust_normalize_wrap 'u' ['3'] '2' (by decide) (by decide) (by simp) rfl rfl]
    decide
  · rw [map_rust_type_to_ts, show "i32".data = 'i' :: (['3'] ++ ['2']) from rfl,
      map_rust_type_to_ts_core,
      rust_normalize_wrap 'i' ['3'] '2' (by decide) (by decide) (by simp) rfl rfl]
    decide
  · rw [map_rust_type_to_ts, show "u64".data = 'u' :: (['6'] ++ ['4']) from rfl,
      map_rust_type_to_ts_core,
      rust_normalize_wrap 'u' ['6'] '4' (by decide) (by decide) (by simp) rfl rfl]
    decide
  · rw [map_rust_type_to_ts, show "i64".data = 'i' :: (['6'] ++ ['4']) from rfl,
      map_rust_type_to_ts_core,
      rust_normalize_wrap 'i' ['6'] '4' (by decide) (by decide) (by simp) rfl rfl]
    decide
  · rw [map_rust_type_to_ts, show "f32".data = 'f' :: (['3'] ++ ['2']) from rfl,
      map_rust_type_to_ts_core,
      rust_normalize_wrap 'f' ['3'] '2' (by decide) (by decide) (by simp) rfl rfl]
    decide
  · rw [map_rust_type_to_ts, show "f64".data = 'f' :: (['6'] ++ ['4']) from rfl,
      map_rust_type_to_ts_core,
      rust_normalize_wrap 'f' ['6'] '4' (by decide) (by decide) (by simp) rfl rfl]
    decide
  · rw [map_rust_type_to_ts, show "usize".data = 'u' :: (['s','i','z'] ++ ['e']) from rfl,
      map_rust_type_to_ts_core,
      rust_normalize_wrap 'u' ['s','i','z'] 'e' (by decide) (by decide) (by simp) rfl rfl]
    decide
  · rw [map_rust_type_to_ts, show "isize".data = 'i' :: (['s','i','z'] ++ ['e']) from rfl,
      map_rust_type_to_ts_core,
      rust_normalize_wrap 'i' ['s','i','z'] 'e' (by decide) (by decide) (by simp) rfl rfl]
    decide
  · rw [map_ts_type_to_rust, map_ts_type_to_rust_core]
    decide
  · rw [map_ts_type_to_rust, map_ts_type_to_rust_core]
    decide
  · rw [map_ts_type_to_rust, map_ts_type_to_rust_core]
    decide
  · rw [map_ts_type_to_rust, map_ts_type_to_rust_core]
    decide

/-- C9 witness: the trimmed-element hypothesis of the frontend array rule
discharged at the concrete element `string`. -/
theorem C9_type_map_witness :
    trimChars "string".data = "string".data ∧
    map_ts_type_to_rust_core ("string".data ++ "[]".data) =
      "Vec<".data ++ map_ts_type_to_rust_core "string".data ++ ">".data :=
  ⟨by decide, (C9_type_map.2.2.2.2.2.2.2.2.2.2.2.2.2.2.2.2.2.2.2.2.1)
    "string".data (by decide)⟩

/-! ## C2: position lookup -/

theorem in_range_iff_insideSpec (pos : Position) (r : Range) :
    is_position_in_range pos r = true ↔ insideSpec pos r := by
  unfold is_position_in_range insideSpec
  split_ifs with h1 h2 h3 h4 <;> simp_all <;> omega

/-- For an index of at most two entries the binary-search window always
covers the whole index. -/
theorem binary_search_position_small (index : List (Range × IndexKey)) (pos : Position)
    (map : List (IndexKey × List LocationInfo)) (path : String)
    (hlen : index.length ≤ 2) :
    binary_search_position index pos map path =
      index.findSome? (checkCandidate pos map path) := by
  unfold binary_search_position partitionPoint
  have hidx : (index.takeWhile (searchPred pos)).length ≤ 2 :=
    le_trans (List.takeWhile_sublist _).length_le hlen
  have hlo : (index.takeWhile (searchPred pos)).length - 2 = 0 := by omega
  have hhi : min ((index.takeWhile (searchPred pos)).length + 2) index.length =
      index.length := by omega
  show ((index.drop ((index.takeWhile (searchPred pos)).length - 2)).take
      (min ((index.takeWhile (searchPred pos)).length + 2) index.length -
        ((index.takeWhile (searchPred pos)).length - 2))).findSome?
      (checkCandidate pos map path) = index.findSome? (checkCandidate pos map path)
  rw [hlo, hhi]
  simp

/-- If no entry of the index contains the position, the search returns
nothing. -/
theorem binary_search_position_none (index : List (Range × IndexKey)) (pos : Position)
    (map : List (IndexKey × List LocationInfo)) (path : String)
    (h : ∀ e ∈ index, is_position_in_range pos e.1 = false) :
    binary_search_position index pos map path = none := by
  unfold binary_search_position
  apply List.findSome?_eq_none.mpr
  intro e he
  have hm : e ∈ index := (List.Sublist.trans (List.take_sublist _ _)
    (List.drop_sublist _ _)).mem he
  unfold checkCandidate
  rw [h e hm]
  simp

/-- The Rust version of the claim's "inside" never holds at the end position
of a single-line range. -/
theorem end_not_in_single_line (line c1 c2 : Nat) :
    is_position_in_range ⟨line, c2⟩ (mkRange line c1 line c2) = false := by
  unfold is_position_in_range mkRange
  simp

/-- A file with three findings: a large multi-line one starting first, and
two small ones on intervening lines. -/
def c2MissState : ProjectIndex :=
  add_file ProjectIndex.empty
    { path := "big.ts",
      findings :=
        [mkFinding "outer" EntityType.Command Behavior.Call (mkRange 0 0 10 0),
         mkFinding "inner1" EntityType.Command Behavior.Call (mkRange 1 0 1 1),
         mkFinding "inner2" EntityType.Command Behavior.Call (mkRange 2 0 2 1)] }

/-- C2 counterexample: position (5,0) lies strictly inside the indexed
finding `outer` (range (0,0)-(10,0)), yet `get_key_at_position` returns
nothing: all three entries start at or before (5,0), so the binary-search
window of two candidates scans only the two nearest starts (`inner1`,
`inner2`) and misses `outer`. -/
theorem C2_counterexample :
    insideSpec ⟨5, 0⟩ (mkRange 0 0 10 0) ∧
    is_position_in_range ⟨5, 0⟩ (mkRange 0 0 10 0) = true ∧
    (alookup c2MissState.file_map "big.ts").isSome = true ∧
    get_key_at_position c2MissState "big.ts" ⟨5, 0⟩ = none := by decide

/-- Lookup in the primary map after `add_file`'s insertion loop: the keys of
the inserted findings gain their locations (in finding order) behind any
prior list; other keys are untouched. -/
theorem alookup_foldl_push (path : String) (fs : List Finding)
    (m : List (IndexKey × List LocationInfo)) (k : IndexKey) :
    alookup (fs.foldl (pushFinding path) m) k =
      match alookup m k with
      | some ls => some (ls ++ (fs.filter (fun f => findingKey f = k)).map (findingLoc path))
      | none =>
        if (fs.filter (fun f => findingKey f = k)).isEmpty then none
        else some ((fs.filter (fun f => findingKey f = k)).map (findingLoc path)) := by
  induction fs generalizing m with
  | nil => cases h : alookup m k <;> simp [h]
  | cons f fs ih =>
    simp only [List.foldl_cons]
    rw [ih]
    unfold pushFinding
    by_cases hf : findingKey f = k
    · rw [hf, alookup_ainsert, if_pos rfl]
      cases h : alookup m k <;> simp [h, List.filter_cons, hf]
    · rw [alookup_ainsert, if_neg hf]
      cases h : alookup m k <;> simp [h, List.filter_cons, hf]

/-- Every entry of the position index comes from a location of the file. -/
theorem mem_build_position_index (path : String) (fm : List (String × List IndexKey))
    (m : List (IndexKey × List LocationInfo)) (e : Range × IndexKey)
    (he : e ∈ build_position_index path fm m) :
    ∃ k locs loc, alookup m k = some locs ∧ loc ∈ locs ∧ loc.path = path ∧
      e = (loc.range, k) := by
  unfold build_position_index at he
  cases hf : alookup fm path with
  | none =>
    rw [hf] at he
    simp at he
  | some keys =>
    rw [hf] at he
    rw [mem_insertionSort] at he
    suffices h : ∀ (ks : List IndexKey) (acc : List (Range × IndexKey)),
        e ∈ ks.foldl (fun acc key =>
          match alookup m key with
          | some locations =>
            acc ++ (locations.filter (fun loc => loc.path = path)).map
              (fun loc => (loc.range, key))
          | none => acc) acc →
        e ∈ acc ∨ ∃ k locs loc, alookup m k = some locs ∧ loc ∈ locs ∧
          loc.path = path ∧ e = (loc.range, k) by
      rcases h keys [] he with h' | h'
      · simp at h'
      · exact h'
    intro ks
    induction ks with
    | nil => exact fun acc h => Or.inl h
    | cons key ks ih =>
      intro acc h
      simp only [List.foldl_cons] at h
      rcases ih _ h with h' | h'
      · cases hm : alookup m key with
        | none =>
          rw [hm] at h'
          exact Or.inl h'
        | some locs =>
          rw [hm] at h'
          rcases List.mem_append.mp h' with h'' | h''
          · exact Or.inl h''
          · simp only [List.mem_map, List.mem_filter, decide_eq_true_eq] at h''
            obtain ⟨loc, ⟨hl, hp⟩, rfl⟩ := h''
            exact Or.inr ⟨key, locs, loc, hm, hl, hp, rfl⟩
      · exact Or.inr h'

/-- If no finding of the (only) indexed file contains the position, the
lookup finds nothing. -/
theorem C2_no_containment (path : String) (fs : List Finding) (pos : Position)
    (h : ∀ f ∈ fs, is_position_in_range pos f.range = false) :
    get_key_at_position (add_file ProjectIndex.empty { path := path, findings := fs })
      path pos = none := by
  show binary_search_position
    (build_position_index path
      (add_file ProjectIndex.empty { path := path, findings := fs }).file_map
      (add_file ProjectIndex.empty { path := path, findings := fs }).map) pos
    (add_file ProjectIndex.empty { path := path, findings := fs }).map path = none
  apply binary_search_position_none
  intro e he
  obtain ⟨k, locs, loc, hlk, hl, hp, rfl⟩ := mem_build_position_index _ _ _ _ he
  rw [show (add_file ProjectIndex.empty { path := path, findings := fs }).map =
    fs.foldl (pushFinding path) [] from rfl] at hlk
  rw [alookup_foldl_push] at hlk
  simp only [alookup_nil] at hlk
  by_cases hemp : (fs.filter (fun f => findingKey f = k)).isEmpty
  · rw [if_pos hemp] at hlk
    exact absurd hlk (by simp)
  · rw [if_neg hemp] at hlk
    have hlocs : locs = (fs.filter (fun f => findingKey f = k)).map (findingLoc path) :=
      (Option.some_inj.mp hlk).symm
    subst hlocs
    simp only [List.mem_map, List.mem_filter, decide_eq_true_eq] at hl
    obtain ⟨f, ⟨hf, _⟩, rfl⟩ := hl
    exact h f hf

theorem ainsert_absent [DecidableEq K] (l : List (K × V)) (k : K) (v : V)
    (h : alookup l k = none) : ainsert l k v = l ++ [(k, v)] := by
  unfold ainsert
  rw [h]
  rfl

/-- For a file indexing two findings with distinct keys, a position inside
exactly one of them is resolved to that finding's key and location. -/
theorem C2_two_findings (path : String) (f1 f2 : Finding) (pos : Position)
    (hk : findingKey f1 ≠ findingKey f2)
    (h1 : is_position_in_range pos f1.range = true)
    (h2 : is_position_in_range pos f2.range = false) :
    get_key_at_position (add_file ProjectIndex.empty { path := path, findings := [f1, f2] })
      path pos = some (findingKey f1, findingLoc path f1) := by
  set st := add_file ProjectIndex.empty { path := path, findings := [f1, f2] } with hst
  have hmap : st.map = [(findingKey f1, [findingLoc path f1]),
      (findingKey f2, [findingLoc path f2])] := by
    show pushFinding path (pushFinding path [] f1) f2 = _
    rw [show pushFinding path [] f1 = [(findingKey f1, [findingLoc path f1])] from rfl]
    unfold pushFinding
    have hn : alookup [(findingKey f1, [findingLoc path f1])] (findingKey f2) = none := by
      rw [alookup_cons, if_neg hk]
      rfl
    rw [hn, ainsert_absent _ _ _ hn]
    rfl
  have ha1 : alookup st.map (findingKey f1) = some [findingLoc path f1] := by
    rw [hmap, alookup_cons, if_pos rfl]
  have ha2 : alookup st.map (findingKey f2) = some [findingLoc path f2] := by
    rw [hmap, alookup_cons, if_neg hk, alookup_cons, if_pos rfl]
  have hc1 : checkCandidate pos st.map path (f1.range, findingKey f1) =
      some (findingKey f1, findingLoc path f1) := by
    unfold checkCandidate
    rw [if_pos h1, ha1]
    have hp : (findingLoc path f1).path = path ∧
        is_position_in_range pos (findingLoc path f1).range = true := ⟨rfl, h1⟩
    simp [List.find?, findingLoc, h1]
  have hc2 : checkCandidate pos st.map path (f2.range, findingKey f2) = none := by
    unfold checkCandidate
    rw [if_neg (by simp [h2])]
  have hbuild : build_position_index path st.file_map st.map =
      insertionSort startLE [(f1.range, findingKey f1), (f2.range, findingKey f2)] := by
    unfold build_position_index
    have hfm : alookup st.file_map path = some [findingKey f1, findingKey f2] := by
      rw [show st.file_map = [(path, [findingKey f1, findingKey f2])] from rfl,
        alookup_cons, if_pos rfl]
    rw [hfm]
    simp only [List.foldl_cons, List.foldl_nil, ha1, ha2]
    simp [findingLoc]
  show binary_search_position (build_position_index path st.file_map st.map) pos st.map
    path = some (findingKey f1, findingLoc path f1)
  rw [hbuild]
  by_cases hle : startLE (f1.range, findingKey f1) (f2.range, findingKey f2) = true
  · rw [show insertionSort startLE [(f1.range, findingKey f1), (f2.range, findingKey f2)] =
        [(f1.range, findingKey f1), (f2.range, findingKey f2)] from by
      simp [insertionSort, insertLE, hle]]
    rw [binary_search_position_small _ _ _ _ (by simp)]
    simp [List.findSome?_cons, hc1]
  · rw [show insertionSort startLE [(f1.range, findingKey f1), (f2.range, findingKey f2)] =
        [(f2.range, findingKey f2), (f1.range, findingKey f1)] from by
      simp [insertionSort, insertLE, hle]]
    rw [binary_search_position_small _ _ _ _ (by simp)]
    simp [List.findSome?_cons, hc1, hc2]

/-- C2 amended: containment is exactly the claimed half-open rule
(`is_position_in_range` agrees with the specification's "inside", and the
end position of a single-line range is never inside); `get_key_at_position`
returns the containing finding's key whenever the binary-search candidate
window covers its index entry — in particular always for a file indexing at
most two findings (distinct keys, the other not containing the position) —
and returns nothing when no finding of the file contains the position.
With three or more findings starting at or before the position, a containing
finding can fall outside the two-candidate window and be missed (see the
counterexample). -/
theorem C2_position_lookup :
    (∀ (pos : Position) (r : Range),
      is_position_in_range pos r = true ↔ insideSpec pos r) ∧
    (∀ (line c1 c2 : Nat),
      is_position_in_range ⟨line, c2⟩ (mkRange line c1 line c2) = false) ∧
    (∀ (path : String) (f1 f2 : Finding) (pos : Position),
      findingKey f1 ≠ findingKey f2 →
      is_position_in_range pos f1.range = true →
      is_position_in_range pos f2.range = false →
      get_key_at_position (add_file ProjectIndex.empty { path := path, findings := [f1, f2] })
        path pos = some (findingKey f1, findingLoc path f1)) ∧
    (∀ (path : String) (fs : List Finding) (pos : Position),
      (∀ f ∈ fs, is_position_in_range pos f.range = false) →
      get_key_at_position (add_file ProjectIndex.empty { path := path, findings := fs })
        path pos = none) :=
  ⟨in_range_iff_insideSpec, end_not_in_single_line, C2_two_findings, C2_no_containment⟩

/-- C2 witness: the two-finding retrieval applied at concrete findings and a
concrete inside position. -/
theorem C2_position_lookup_witness :
    (findingKey (mkFinding "a" EntityType.Command Behavior.Call (mkRange 0 0 0 3)) ≠
      findingKey (mkFinding "b" EntityType.Command Behavior.Call (mkRange 1 0 1 3)) ∧
     is_position_in_range ⟨0, 1⟩ (mkFinding "a" EntityType.Command Behavior.Call
       (mkRange 0 0 0 3)).range = true ∧
     is_position_in_range ⟨0, 1⟩ (mkFinding "b" EntityType.Command Behavior.Call
       (mkRange 1 0 1 3)).range = false) ∧
    get_key_at_position
      (add_file ProjectIndex.empty
        { path := "w.ts",
          findings := [mkFinding "a" EntityType.Command Behavior.Call (mkRange 0 0 0 3),
                       mkFinding "b" EntityType.Command Behavior.Call (mkRange 1 0 1 3)] })
      "w.ts" ⟨0, 1⟩ =
      some (findingKey (mkFinding "a" EntityType.Command Behavior.Call (mkRange 0 0 0 3)),
        findingLoc "w.ts" (mkFinding "a" EntityType.Command Behavior.Call (mkRange 0 0 0 3))) :=
  ⟨⟨by decide, by decide, by decide⟩,
    C2_position_lookup.2.2.1 "w.ts"
      (mkFinding "a" EntityType.Command Behavior.Call (mkRange 0 0 0 3))
      (mkFinding "b" EntityType.Command Behavior.Call (mkRange 1 0 1 3))
      ⟨0, 1⟩ (by decide) (by decide) (by decide)⟩

/-! ## C4: removal prunes empty keys -/

theorem removeLocsForKey_lookup_ne (path : String)
    (m : List (IndexKey × List LocationInfo)) (k' k : IndexKey) (h : k' ≠ k) :
    alookup (removeLocsForKey path m k') k = alookup m k := by
  unfold removeLocsForKey
  cases hm : alookup m k' with
  | none => rfl
  | some locs =>
    by_cases he : (locs.filter (fun loc => loc.path ≠ path)).isEmpty
    · simp only [he, if_true]
      rw [alookup_aerase, if_neg h]
    · simp only [he, Bool.false_eq_true, if_false]
      rw [alookup_ainsert, if_neg h]

theorem fold_remove_preserves_none (path : String) (ks : List IndexKey)
    (m : List (IndexKey × List LocationInfo)) (k : IndexKey)
    (h : alookup m k = none) :
    alookup (ks.foldl (removeLocsForKey path) m) k = none := by
  induction ks generalizing m with
  | nil => exact h
  | cons k' ks ih =>
    simp only [List.foldl_cons]
    apply ih
    by_cases hk : k' = k
    · subst hk
      unfold removeLocsForKey
      rw [h]
      exact h
    · rw [removeLocsForKey_lookup_ne path m k' k hk]
      exact h

theorem fold_remove_lookup_none (path : String) (ks : List IndexKey)
    (m : List (IndexKey × List LocationInfo)) (k : IndexKey)
    (hmem : k ∈ ks) (hall : ∀ l ∈ (alookup m k).getD [], l.path = path) :
    alookup (ks.foldl (removeLocsForKey path) m) k = none := by
  induction ks generalizing m with
  | nil => simp at hmem
  | cons k' ks ih =>
    simp only [List.foldl_cons]
    by_cases hk : k' = k
    · subst hk
      cases hm : alookup m k' with
      | none =>
        apply fold_remove_preserves_none
        unfold removeLocsForKey
        rw [hm]
        exact hm
      | some locs =>
        have hfil : locs.filter (fun loc => loc.path ≠ path) = [] := by
          rw [List.filter_eq_nil_iff]
          intro l hl
          have hp := hall l (by rw [hm]; exact hl)
          simp [hp]
        apply fold_remove_preserves_none
        unfold removeLocsForKey
        rw [hm]
        simp only [hfil, List.isEmpty_nil, if_true]
        rw [alookup_aerase, if_pos rfl]
    · rcases List.mem_cons.mp hmem with h' | h'
      · exact absurd h'.symm hk
      · refine ih _ h' ?_
        rw [removeLocsForKey_lookup_ne path m k' k hk]
        exact hall

/-- C4: after `remove_file(path)`, a key the reverse map listed for the path
whose locations were all in that path has no entry left in the primary map
(no empty-valued garbage key remains in enumeration) and `get_locations`
returns the empty list. -/
theorem C4_removal_prunes (s : ProjectIndex) (path : String) (k : IndexKey)
    (ks : List IndexKey) (hks : alookup s.file_map path = some ks) (hmem : k ∈ ks)
    (hall : ∀ l ∈ (alookup s.map k).getD [], l.path = path) :
    alookup (remove_file s path).map k = none ∧
    k ∉ (remove_file s path).map.map Prod.fst ∧
    get_locations (remove_file s path) k.entity k.name = [] := by
  have hmap : (remove_file s path).map = ks.foldl (removeLocsForKey path) s.map := by
    unfold remove_file
    rw [hks]
  have hnone := fold_remove_lookup_none path ks s.map k hmem hall
  refine ⟨?_, ?_, ?_⟩
  · rw [hmap]
    exact hnone
  · rw [hmap]
    exact alookup_none_not_mem_fst _ _ hnone
  · unfold get_locations
    rw [show ({ entity := k.entity, name := k.name } : IndexKey) = k from rfl]
    rw [hmap, hnone]
    rfl

/-- C4 witness: removing the only file of a one-file index prunes its key. -/
theorem C4_removal_prunes_witness :
    (alookup c5StateBefore.file_map "app.ts" =
      some [{ entity := EntityType.Command, name := "f" }] ∧
     ({ entity := EntityType.Command, name := "f" } : IndexKey) ∈
      [({ entity := EntityType.Command, name := "f" } : IndexKey)] ∧
     ∀ l ∈ (alookup c5StateBefore.map { entity := EntityType.Command, name := "f" }).getD [],
       l.path = "app.ts") ∧
    get_locations (remove_file c5StateBefore "app.ts") EntityType.Command "f" = [] :=
  ⟨⟨by decide, by decide, by decide⟩,
    (C4_removal_prunes c5StateBefore "app.ts" { entity := EntityType.Command, name := "f" }
      [{ entity := EntityType.Command, name := "f" }]
      (by decide) (by decide) (by decide)).2.2⟩

/-! ## C3: idempotence of add_file -/

/-- Spec invariant (1), in the direction idempotence relies on: every
location stored under a key is backed by the reverse map listing that key
for the location's file.  States reachable through `add_file`/`remove_file`
satisfy this. -/
def Coherent (s : ProjectIndex) : Prop :=
  ∀ (k : IndexKey) (locs : List LocationInfo) (l : LocationInfo),
    alookup s.map k = some locs → l ∈ locs →
    ∃ ks, alookup s.file_map l.path = some ks ∧ k ∈ ks

theorem aerase_append [DecidableEq K] (l₁ l₂ : List (K × V)) (k : K) :
    aerase (l₁ ++ l₂) k = aerase l₁ k ++ aerase l₂ k := by
  unfold aerase
  exact List.filter_append l₁ l₂

theorem aerase_ainsert_absent [DecidableEq K] (l : List (K × V)) (k : K) (v : V)
    (h : alookup l k = none) : aerase (ainsert l k v) k = l := by
  rw [ainsert_absent _ _ _ h, aerase_append]
  rw [aerase_of_not_mem l k h]
  rw [show aerase [(k, v)] k = [] from by simp [aerase]]
  exact List.append_nil l

theorem remove_file_file_map_lookup (s : ProjectIndex) (p : String) :
    alookup (remove_file s p).file_map p = none := by
  unfold remove_file
  cases h : alookup s.file_map p with
  | some keys =>
    show alookup (aerase s.file_map p) p = none
    rw [alookup_aerase, if_pos rfl]
  | none => exact h

theorem add_file_map (s : ProjectIndex) (fi : FileIndex) :
    (add_file s fi).map =
      fi.findings.foldl (pushFinding fi.path) (remove_file s fi.path).map := rfl

theorem add_file_file_map (s : ProjectIndex) (fi : FileIndex) :
    (add_file s fi).file_map =
      ainsert (remove_file s fi.path).file_map fi.path (fi.findings.map findingKey) := rfl

theorem add_file_cache (s : ProjectIndex) (fi : FileIndex) :
    (add_file s fi).cache = invalidate_file (remove_file s fi.path).cache fi.path := rfl

theorem add_file_parse_errors (s : ProjectIndex) (fi : FileIndex) :
    (add_file s fi).parse_errors = aerase s.parse_errors fi.path := by
  show (remove_file s fi.path).parse_errors = _
  unfold remove_file
  cases h : alookup s.file_map fi.path <;> rfl

theorem add_file_reference_limit (s : ProjectIndex) (fi : FileIndex) :
    (add_file s fi).reference_limit = s.reference_limit := by
  show (remove_file s fi.path).reference_limit = _
  unfold remove_file
  cases h : alookup s.file_map fi.path <;> rfl

theorem add_file_file_map_self_lookup (s : ProjectIndex) (fi : FileIndex) :
    alookup (add_file s fi).file_map fi.path = some (fi.findings.map findingKey) := by
  rw [add_file_file_map, alookup_ainsert, if_pos rfl]

theorem add_file_file_map_idem (s : ProjectIndex) (fi : FileIndex) :
    (add_file (add_file s fi) fi).file_map = (add_file s fi).file_map := by
  rw [add_file_file_map (add_file s fi) fi]
  have h2 : (remove_file (add_file s fi) fi.path).file_map =
      aerase (add_file s fi).file_map fi.path := by
    unfold remove_file
    rw [add_file_file_map_self_lookup]
  rw [h2, add_file_file_map s fi,
    aerase_ainsert_absent _ _ _ (remove_file_file_map_lookup s fi.path)]

theorem add_file_parse_errors_idem (s : ProjectIndex) (fi : FileIndex) :
    (add_file (add_file s fi) fi).parse_errors = (add_file s fi).parse_errors := by
  rw [add_file_parse_errors, add_file_parse_errors, aerase_aerase]

theorem invalidate_file_idem (c : CacheManager) (p : String) :
    invalidate_file (invalidate_file c p) p = invalidate_file c p := by
  unfold invalidate_file invalidate_all
  simp [aerase_aerase]

theorem add_file_cache_idem (s : ProjectIndex) (fi : FileIndex) :
    (add_file (add_file s fi) fi).cache = (add_file s fi).cache := by
  rw [add_file_cache (add_file s fi) fi]
  have h2 : (remove_file (add_file s fi) fi.path).cache =
      invalidate_file (add_file s fi).cache fi.path := by
    unfold remove_file
    rw [add_file_file_map_self_lookup]
  rw [h2, add_file_cache s fi]
  exact (invalidate_file_idem _ _).trans (invalidate_file_idem _ _)

theorem add_file_reference_limit_idem (s : ProjectIndex) (fi : FileIndex) :
    (add_file (add_file s fi) fi).reference_limit = (add_file s fi).reference_limit := by
  rw [add_file_reference_limit, add_file_reference_limit]

/-- What `remove_file`'s per-key loop leaves at a processed key: the entry is
dropped when all its locations were in the removed path, else filtered. -/
def purgeVal (p : String) : Option (List LocationInfo) → Option (List LocationInfo)
  | none => none
  | some ls =>
    if (ls.filter (fun loc => loc.path ≠ p)).isEmpty then none
    else some (ls.filter (fun loc => loc.path ≠ p))

theorem removeLocsForKey_lookup_self (p : String)
    (m : List (IndexKey × List LocationInfo)) (k : IndexKey) :
    alookup (removeLocsForKey p m k) k = purgeVal p (alookup m k) := by
  unfold removeLocsForKey purgeVal
  cases hm : alookup m k with
  | none => exact hm
  | some ls =>
    by_cases he : (ls.filter (fun loc => loc.path ≠ p)).isEmpty
    · simp only [he, if_true]
      rw [alookup_aerase, if_pos rfl]
    · simp only [he, Bool.false_eq_true, if_false]
      rw [alookup_ainsert, if_pos rfl]

theorem purgeVal_none (p : String) : purgeVal p none = none := rfl

theorem purgeVal_some (p : String) (ls : List LocationInfo) :
    purgeVal p (some ls) =
      if (ls.filter (fun loc => loc.path ≠ p)).isEmpty = true then none
      else some (ls.filter (fun loc => loc.path ≠ p)) := rfl

theorem purgeVal_idem (p : String) (v : Option (List LocationInfo)) :
    purgeVal p (purgeVal p v) = purgeVal p v := by
  cases v with
  | none => rfl
  | some ls =>
    by_cases he : (ls.filter (fun loc => loc.path ≠ p)).isEmpty = true
    · rw [purgeVal_some, if_pos he, purgeVal_none]
    · have h2 : (ls.filter (fun loc => loc.path ≠ p)).filter (fun loc => loc.path ≠ p) =
          ls.filter (fun loc => loc.path ≠ p) := by
        rw [List.filter_filter]
        simp only [Bool.and_self]
      rw [purgeVal_some, if_neg he, purgeVal_some, h2, if_neg he]

theorem fold_remove_fixpoint (p : String) (ks : List IndexKey)
    (m : List (IndexKey × List LocationInfo)) (k : IndexKey)
    (h : purgeVal p (alookup m k) = alookup m k) :
    alookup (ks.foldl (removeLocsForKey p) m) k = alookup m k := by
  induction ks generalizing m with
  | nil => rfl
  | cons k' ks ih =>
    simp only [List.foldl_cons]
    have hstep : alookup (removeLocsForKey p m k') k = alookup m k := by
      by_cases hk : k' = k
      · subst hk
        rw [removeLocsForKey_lookup_self, h]
      · exact removeLocsForKey_lookup_ne p m k' k hk
    rw [ih _ (by rw [hstep]; exact h), hstep]

theorem fold_remove_lookup_mem (p : String) (ks : List IndexKey)
    (m : List (IndexKey × List LocationInfo)) (k : IndexKey) (hmem : k ∈ ks) :
    alookup (ks.foldl (removeLocsForKey p) m) k = purgeVal p (alookup m k) := by
  induction ks generalizing m with
  | nil => simp at hmem
  | cons k' ks ih =>
    simp only [List.foldl_cons]
    by_cases hk : k' = k
    · subst hk
      have hstep := removeLocsForKey_lookup_self p m k'
      rw [fold_remove_fixpoint p ks _ k' (by rw [hstep, purgeVal_idem]), hstep]
    · rcases List.mem_cons.mp hmem with h' | h'
      · exact absurd h'.symm hk
      · rw [ih _ h', removeLocsForKey_lookup_ne p m k' k hk]

theorem fold_remove_lookup_not_mem (p : String) (ks : List IndexKey)
    (m : List (IndexKey × List LocationInfo)) (k : IndexKey) (hmem : k ∉ ks) :
    alookup (ks.foldl (removeLocsForKey p) m) k = alookup m k := by
  induction ks generalizing m with
  | nil => rfl
  | cons k' ks ih =>
    simp only [List.foldl_cons]
    have hne : k' ≠ k := fun h => hmem (h ▸ List.mem_cons_self k' ks)
    rw [ih _ (fun h => hmem (List.mem_cons_of_mem k' h)),
      removeLocsForKey_lookup_ne p m k' k hne]

/-- After `remove_file`, in a coherent state, no location of the removed
path survives under any key. -/
theorem remove_file_map_path_free (s : ProjectIndex) (p : String) (k : IndexKey)
    (hcoh : Coherent s) :
    ∀ l ∈ ((alookup (remove_file s p).map k).getD []), l.path ≠ p := by
  unfold remove_file
  cases hf : alookup s.file_map p with
  | none =>
    intro l hl hp
    show False
    cases hm : alookup s.map k with
    | none => rw [hm] at hl; simp at hl
    | some locs =>
      rw [hm] at hl
      simp only [Option.getD_some] at hl
      obtain ⟨ks, hks, _⟩ := hcoh k locs l hm hl
      rw [hp, hf] at hks
      cases hks
  | some K =>
    show ∀ l ∈ ((alookup (K.foldl (removeLocsForKey p) s.map) k).getD []), l.path ≠ p
    by_cases hk : k ∈ K
    · rw [fold_remove_lookup_mem p K s.map k hk]
      cases hm : alookup s.map k with
      | none => simp [purgeVal_none]
      | some ls =>
        by_cases he : (ls.filter (fun loc => loc.path ≠ p)).isEmpty = true
        · rw [purgeVal_some, if_pos he]
          simp
        · rw [purgeVal_some, if_neg he]
          simp only [Option.getD_some]
          intro l hl
          have := List.of_mem_filter hl
          simpa using this
    · rw [fold_remove_lookup_not_mem p K s.map k hk]
      intro l hl hp
      cases hm : alookup s.map k with
      | none => rw [hm] at hl; simp at hl
      | some locs =>
        rw [hm] at hl
        simp only [Option.getD_some] at hl
        obtain ⟨ks, hks, hkmem⟩ := hcoh k locs l hm hl
        rw [hp, hf] at hks
        exact hk ((Option.some_inj.mp hks) ▸ hkmem)

theorem mem_map_findingKey_iff (fs : List Finding) (k : IndexKey) :
    k ∈ fs.map findingKey ↔ (fs.filter (fun f => findingKey f = k)) ≠ [] := by
  constructor
  · intro h
    rw [List.mem_map] at h
    obtain ⟨f, hf, rfl⟩ := h
    intro hnil
    have hmem : f ∈ fs.filter (fun f' => findingKey f' = findingKey f) :=
      List.mem_filter.mpr ⟨hf, by simp⟩
    rw [hnil] at hmem
    cases hmem
  · intro h
    obtain ⟨f, hf⟩ := List.exists_mem_of_ne_nil _ h
    have hm := List.mem_filter.mp hf
    rw [List.mem_map]
    exact ⟨f, hm.1, by simpa using hm.2⟩

/-- The heart of idempotence: re-adding the same file leaves every primary
map lookup unchanged (in a coherent state). -/
theorem add_file_map_lookup_idem (s : ProjectIndex) (fi : FileIndex)
    (hcoh : Coherent s) (k : IndexKey) :
    alookup (add_file (add_file s fi) fi).map k = alookup (add_file s fi).map k := by
  have hm2 : (remove_file (add_file s fi) fi.path).map =
      (fi.findings.map findingKey).foldl (removeLocsForKey fi.path) (add_file s fi).map := by
    unfold remove_file
    rw [add_file_file_map_self_lookup]
  rw [add_file_map (add_file s fi) fi, hm2, alookup_foldl_push]
  by_cases hmem : k ∈ fi.findings.map findingKey
  · rw [fold_remove_lookup_mem _ _ _ _ hmem]
    have hfil : fi.findings.filter (fun f => findingKey f = k) ≠ [] :=
      (mem_map_findingKey_iff _ _).mp hmem
    have hfilE : (fi.findings.filter (fun f => findingKey f = k)).isEmpty = false := by
      cases hE : (fi.findings.filter (fun f => findingKey f = k)).isEmpty
      · rfl
      · exact absurd (List.isEmpty_iff.mp hE) hfil
    have hs1 : alookup (add_file s fi).map k =
        some (((alookup (remove_file s fi.path).map k).getD []) ++
          (fi.findings.filter (fun f => findingKey f = k)).map (findingLoc fi.path)) := by
      rw [add_file_map, alookup_foldl_push]
      cases hpr : alookup (remove_file s fi.path).map k with
      | some ls => simp
      | none => simp [hfilE]
    rw [hs1, purgeVal_some]
    have hfree := remove_file_map_path_free s fi.path k hcoh
    have hfilter : ((((alookup (remove_file s fi.path).map k).getD []) ++
        (fi.findings.filter (fun f => findingKey f = k)).map (findingLoc fi.path)).filter
          (fun loc => loc.path ≠ fi.path)) =
        ((alookup (remove_file s fi.path).map k).getD []) := by
      rw [List.filter_append]
      have h1 : ((alookup (remove_file s fi.path).map k).getD []).filter
          (fun loc => loc.path ≠ fi.path) =
          (alookup (remove_file s fi.path).map k).getD [] := by
        rw [List.filter_eq_self]
        intro l hl
        simpa using hfree l hl
      have h2 : ((fi.findings.filter (fun f => findingKey f = k)).map
          (findingLoc fi.path)).filter (fun loc => loc.path ≠ fi.path) = [] := by
        rw [List.filter_eq_nil_iff]
        intro l hl
        rw [List.mem_map] at hl
        obtain ⟨f, _, rfl⟩ := hl
        simp [findingLoc]
      rw [h1, h2, List.append_nil]
    rw [hfilter]
    by_cases hpe : ((alookup (remove_file s fi.path).map k).getD []).isEmpty = true
    · rw [if_pos hpe]
      have hnil : (alookup (remove_file s fi.path).map k).getD [] = [] :=
        List.isEmpty_iff.mp hpe
      rw [hnil]
      simp [hfilE]
    · rw [if_neg hpe]
  · rw [fold_remove_lookup_not_mem _ _ _ _ hmem]
    have hfil : fi.findings.filter (fun f => findingKey f = k) = [] := by
      by_contra h
      exact hmem ((mem_map_findingKey_iff _ _).mpr h)
    cases hx : alookup (add_file s fi).map k <;> simp [hx, hfil]

theorem NodupKeys_aerase [DecidableEq K] (l : List (K × V)) (k : K)
    (h : NodupKeys l) : NodupKeys (aerase l k) := by
  unfold NodupKeys aerase at *
  exact List.Nodup.sublist (List.Sublist.map Prod.fst (List.filter_sublist l)) h

theorem NodupKeys_removeLocsForKey (p : String) (m : List (IndexKey × List LocationInfo))
    (k : IndexKey) (h : NodupKeys m) : NodupKeys (removeLocsForKey p m k) := by
  unfold removeLocsForKey
  cases hm : alookup m k with
  | none => exact h
  | some ls =>
    by_cases he : (ls.filter (fun loc => loc.path ≠ p)).isEmpty
    · simp only [he, if_true]
      exact NodupKeys_aerase _ _ h
    · simp only [he, Bool.false_eq_true, if_false]
      exact NodupKeys_ainsert _ _ _ h

theorem NodupKeys_fold_remove (p : String) (ks : List IndexKey)
    (m : List (IndexKey × List LocationInfo)) (h : NodupKeys m) :
    NodupKeys (ks.foldl (removeLocsForKey p) m) := by
  induction ks generalizing m with
  | nil => exact h
  | cons k' ks ih =>
    simp only [List.foldl_cons]
    exact ih _ (NodupKeys_removeLocsForKey p m k' h)

theorem NodupKeys_fold_push (p : String) (fs : List Finding)
    (m : List (IndexKey × List LocationInfo)) (h : NodupKeys m) :
    NodupKeys (fs.foldl (pushFinding p) m) := by
  induction fs generalizing m with
  | nil => exact h
  | cons f fs ih =>
    simp only [List.foldl_cons]
    exact ih _ (NodupKeys_ainsert _ _ _ h)

theorem NodupKeys_remove_file (s : ProjectIndex) (p : String) (h : NodupKeys s.map) :
    NodupKeys (remove_file s p).map := by
  unfold remove_file
  cases hf : alookup s.file_map p with
  | none => exact h
  | some K => exact NodupKeys_fold_remove p K s.map h

theorem NodupKeys_add_file (s : ProjectIndex) (fi : FileIndex) (h : NodupKeys s.map) :
    NodupKeys (add_file s fi).map := by
  rw [add_file_map]
  exact NodupKeys_fold_push _ _ _ (NodupKeys_remove_file s fi.path h)

theorem alookup_eq_perm [DecidableEq K] (l1 l2 : List (K × V))
    (h1 : NodupKeys l1) (h2 : NodupKeys l2)
    (h : ∀ k, alookup l1 k = alookup l2 k) : l1.Perm l2 := by
  refine (List.perm_ext_iff_of_nodup ?_ ?_).mpr ?_
  · exact List.Nodup.of_map _ h1
  · exact List.Nodup.of_map _ h2
  · intro x
    obtain ⟨k, v⟩ := x
    rw [mem_iff_alookup l1 h1, mem_iff_alookup l2 h2, h k]

theorem build_position_index_congr (path : String) (fm : List (String × List IndexKey))
    (m1 m2 : List (IndexKey × List LocationInfo))
    (h : ∀ k, alookup m1 k = alookup m2 k) :
    build_position_index path fm m1 = build_position_index path fm m2 := by
  unfold build_position_index
  cases hf : alookup fm path with
  | none => rfl
  | some keys =>
    have hs : ∀ (ks : List IndexKey) (acc : List (Range × IndexKey)),
        ks.foldl (fun acc key =>
          match alookup m1 key with
          | some locations =>
            acc ++ (locations.filter (fun loc => loc.path = path)).map
              (fun loc => (loc.range, key))
          | none => acc) acc =
        ks.foldl (fun acc key =>
          match alookup m2 key with
          | some locations =>
            acc ++ (locations.filter (fun loc => loc.path = path)).map
              (fun loc => (loc.range, key))
          | none => acc) acc := by
      intro ks
      induction ks with
      | nil => intro acc; rfl
      | cons key ks ih =>
        intro acc
        simp only [List.foldl_cons]
        rw [h key]
        exact ih _
    exact congrArg _ (hs keys [])

theorem binary_search_position_congr (index : List (Range × IndexKey)) (pos : Position)
    (m1 m2 : List (IndexKey × List LocationInfo)) (path : String)
    (h : ∀ k, alookup m1 k = alookup m2 k) :
    binary_search_position index pos m1 path = binary_search_position index pos m2 path := by
  unfold binary_search_position
  have hc : checkCandidate pos m1 path = checkCandidate pos m2 path := by
    funext e
    unfold checkCandidate
    rw [h e.2]
  rw [hc]

theorem lensForKey_congr (s2 s1 : ProjectIndex) (path : String) (key : IndexKey)
    (hm : ∀ k, alookup s2.map k = alookup s1.map k)
    (hl : s2.reference_limit = s1.reference_limit) :
    lensForKey s2 path key = lensForKey s1 path key := by
  unfold lensForKey
  rw [hm key, hl]

theorem lensLoop_congr (s2 s1 : ProjectIndex) (path : String)
    (hm : ∀ k, alookup s2.map k = alookup s1.map k)
    (hl : s2.reference_limit = s1.reference_limit) :
    ∀ (keys processed : List IndexKey) (acc : List (Range × String × List LocationInfo)),
      lensLoop s2 path keys processed acc = lensLoop s1 path keys processed acc := by
  intro keys
  induction keys with
  | nil => intro processed acc; rfl
  | cons k keys ih =>
    intro processed acc
    unfold lensLoop
    by_cases hp : k ∈ processed
    · simp only [hp, if_true]
      exact ih _ _
    · simp only [hp, if_false]
      rw [lensForKey_congr s2 s1 path k hm hl]
      exact ih _ _

theorem computeLensData_congr (s2 s1 : ProjectIndex) (path : String)
    (hfm : s2.file_map = s1.file_map)
    (hm : ∀ k, alookup s2.map k = alookup s1.map k)
    (hl : s2.reference_limit = s1.reference_limit) :
    computeLensData s2 path = computeLensData s1 path := by
  unfold computeLensData
  rw [hfm]
  cases hf : alookup s1.file_map path with
  | none => rfl
  | some keys => exact lensLoop_congr s2 s1 path hm hl keys [] []

/-- C3: re-adding the same `FileIndex` leaves every query of the claim
identical (name enumeration up to permutation, since a `DashMap` has no
observable entry order).  The state hypotheses are the spec's own
invariants: distinct keys in the primary map and reverse-map coherence,
both of which hold for every state reachable through
`add_file`/`remove_file`. -/
theorem C3_add_file_idempotent (s : ProjectIndex) (fi : FileIndex)
    (hnd : NodupKeys s.map) (hcoh : Coherent s) :
    (∀ entity name, get_locations (add_file (add_file s fi) fi) entity name =
      get_locations (add_file s fi) entity name) ∧
    (∀ path pos, get_key_at_position (add_file (add_file s fi) fi) path pos =
      get_key_at_position (add_file s fi) path pos) ∧
    (∀ entity, (get_all_names (add_file (add_file s fi) fi) entity).Perm
      (get_all_names (add_file s fi) entity)) ∧
    (∀ key, get_diagnostic_info (add_file (add_file s fi) fi) key =
      get_diagnostic_info (add_file s fi) key) ∧
    (∀ path, (get_lens_data (add_file (add_file s fi) fi) path).1 =
      (get_lens_data (add_file s fi) path).1) := by
  have hm := add_file_map_lookup_idem s fi hcoh
  have hnd1 : NodupKeys (add_file s fi).map := NodupKeys_add_file s fi hnd
  have hnd2 : NodupKeys (add_file (add_file s fi) fi).map :=
    NodupKeys_add_file (add_file s fi) fi hnd1
  have hperm : (add_file (add_file s fi) fi).map.Perm (add_file s fi).map :=
    alookup_eq_perm _ _ hnd2 hnd1 hm
  refine ⟨?_, ?_, ?_, ?_, ?_⟩
  · intro entity name
    unfold get_locations
    rw [hm]
  · intro path pos
    unfold get_key_at_position
    rw [add_file_cache_idem, add_file_file_map_idem]
    cases hx : alookup (add_file s fi).cache.position_index path with
    | some index => exact binary_search_position_congr index pos _ _ path hm
    | none =>
      rw [build_position_index_congr path _ _ _ hm]
      exact binary_search_position_congr _ pos _ _ path hm
  · intro entity
    cases entity with
    | Command =>
      show ((add_file (add_file s fi) fi).cache.command_names).getD _ |>.Perm
        (((add_file s fi).cache.command_names).getD _)
      rw [add_file_cache_idem]
      rw [show (add_file s fi).cache.command_names = none from by rw [add_file_cache]; rfl]
      exact (hperm.filter _).map _
    | Event =>
      show ((add_file (add_file s fi) fi).cache.event_names).getD _ |>.Perm
        (((add_file s fi).cache.event_names).getD _)
      rw [add_file_cache_idem]
      rw [show (add_file s fi).cache.event_names = none from by rw [add_file_cache]; rfl]
      exact (hperm.filter _).map _
    | Struct => exact List.Perm.refl _
    | Enum => exact List.Perm.refl _
    | Interface => exact List.Perm.refl _
  · intro key
    unfold get_diagnostic_info
    rw [add_file_cache_idem]
    cases hx : alookup (add_file s fi).cache.diagnostic_info key with
    | some info => rfl
    | none =>
      unfold computeDiagnosticInfo
      rw [hm]
  · intro path
    unfold get_lens_data
    rw [add_file_cache_idem]
    cases hx : alookup (add_file s fi).cache.lens_data path with
    | some cached => rfl
    | none =>
      simp only
      rw [computeLensData_congr _ _ path (add_file_file_map_idem s fi) hm
        (add_file_reference_limit_idem s fi)]

/-- C3 witness: the idempotence theorem applied to the empty index and a
concrete file. -/
theorem C3_add_file_idempotent_witness :
    (NodupKeys ProjectIndex.empty.map ∧ Coherent ProjectIndex.empty) ∧
    get_locations
      (add_file (add_file ProjectIndex.empty
        { path := "w.rs",
          findings := [mkFinding "greet" EntityType.Command Behavior.Definition
            (mkRange 0 0 0 5)] })
        { path := "w.rs",
          findings := [mkFinding "greet" EntityType.Command Behavior.Definition
            (mkRange 0 0 0 5)] })
      EntityType.Command "greet" =
    get_locations
      (add_file ProjectIndex.empty
        { path := "w.rs",
          findings := [mkFinding "greet" EntityType.Command Behavior.Definition
            (mkRange 0 0 0 5)] })
      EntityType.Command "greet" :=
  ⟨⟨by simp [NodupKeys, ProjectIndex.empty],
    fun k locs l h _ => Option.noConfusion h⟩,
    (C3_add_file_idempotent ProjectIndex.empty
      { path := "w.rs",
        findings := [mkFinding "greet" EntityType.Command Behavior.Definition
          (mkRange 0 0 0 5)] }
      (by simp [NodupKeys, ProjectIndex.empty])
      (fun k locs l h _ => Option.noConfusion h)).1 EntityType.Command "greet"⟩

end Tarus
